import Mathlib

/-!
Verification development for the PipeAudit audit pipeline engine.

This file shallowly embeds the core data model and operations of the
audit tool (report builder, evidence ledger, audit context, the five
default rules, and the MV DAG collector) and proves the spec claims
about them.

Modelling conventions:
* Rust `u64`/`usize` become `Nat` (no arithmetic in the embedded code
  can overflow 64 bits on the inputs considered, and none of the code
  relies on wrap-around).
* Rust `f64` fields (`max_merge_elapsed_sec`, `free_percent`,
  `read_amplification`, `confidence`) become `Rat`; the only operations
  the embedded code performs on them are order comparisons against
  small integer thresholds, which agree with the f64 comparisons for
  all values of interest.
* Rust `HashMap<String, V>` becomes an association list with
  update-in-place-or-append insertion; this refines the hash map (same
  lookup behaviour, one fixed iteration order among the unspecified
  ones).
* Effects are passed explicitly: `chrono::Utc::now()` timestamps and
  `uuid` report ids enter as ordinary `String` arguments.
* Rust `String` is modelled by Lean `String` (a list of unicode
  scalars); Rust byte-level operations (`str::len`, byte-range
  slicing) are modelled through an explicit UTF-8 width function.
  A byte-range slice that does not fall on a character boundary
  panics in Rust and is modelled as `Option.none`.
-/

namespace PipeAudit

/-! ## Decimal rendering (model of Rust `format!("{}", n)` for unsigned integers) -/

/-- The ASCII digit character for a digit value (values ≥ 9 clamp to the
digit 9; the renderer only ever passes values below ten). -/
def digitChar : Nat → Char
  | 0 => '0'
  | 1 => '1'
  | 2 => '2'
  | 3 => '3'
  | 4 => '4'
  | 5 => '5'
  | 6 => '6'
  | 7 => '7'
  | 8 => '8'
  | _ => '9'

/-- Fuel-driven most-significant-first decimal digit list of a natural number. -/
def natDecAux : Nat → Nat → List Char
  | 0, _ => []
  | fuel + 1, n =>
    if n < 10 then [digitChar n]
    else natDecAux fuel (n / 10) ++ [digitChar (n % 10)]

/-- Decimal rendering of a natural number, as Rust `Display` for `u64`/`usize`. -/
def natDec (n : Nat) : String := ⟨natDecAux (n + 1) n⟩

/-- Model of Rust `format!("{:03}", n)`: zero-pad the decimal rendering to
width at least three. -/
def pad3 (n : Nat) : String :=
  if n < 10 then "00" ++ natDec n
  else if n < 100 then "0" ++ natDec n
  else natDec n

/-- Reading a digit list back as a number (big-endian accumulation). -/
def fromDigits (a : Nat) : List Char → Nat
  | [] => a
  | c :: cs => fromDigits (a * 10 + (c.toNat - 48)) cs

theorem fromDigits_append (a : Nat) (l₁ l₂ : List Char) :
    fromDigits a (l₁ ++ l₂) = fromDigits (fromDigits a l₁) l₂ := by
  induction l₁ generalizing a with
  | nil => rfl
  | cons c cs ih =>
    rw [List.cons_append]
    show fromDigits (a * 10 + (c.toNat - 48)) (cs ++ l₂) = _
    rw [ih]
    rfl

theorem digitChar_toNat {d : Nat} (h : d < 10) : (digitChar d).toNat = 48 + d := by
  match d, h with
  | 0, _ => decide
  | 1, _ => decide
  | 2, _ => decide
  | 3, _ => decide
  | 4, _ => decide
  | 5, _ => decide
  | 6, _ => decide
  | 7, _ => decide
  | 8, _ => decide
  | 9, _ => decide

theorem natDecAux_succ (f n : Nat) :
    natDecAux (f + 1) n =
      if n < 10 then [digitChar n]
      else natDecAux f (n / 10) ++ [digitChar (n % 10)] := rfl

theorem fromDigits_natDecAux (a n fuel : Nat) (h : n < fuel) :
    fromDigits a (natDecAux fuel n) =
      a * 10 ^ (natDecAux fuel n).length + n := by
  induction fuel generalizing a n with
  | zero => omega
  | succ f ih =>
    rw [natDecAux_succ]
    by_cases h10 : n < 10
    · rw [if_pos h10]
      show a * 10 + ((digitChar n).toNat - 48) = a * 10 ^ ([digitChar n]).length + n
      rw [digitChar_toNat h10]
      have : ([digitChar n]).length = 1 := rfl
      rw [this, pow_one]
      omega
    · rw [if_neg h10, fromDigits_append]
      have hf : n / 10 < f := by
        have hdiv : n / 10 < n := Nat.div_lt_self (by omega) (by omega)
        omega
      rw [ih _ _ hf]
      have hm : n % 10 < 10 := Nat.mod_lt n (by omega)
      show (a * 10 ^ (natDecAux f (n / 10)).length + n / 10) * 10 +
          ((digitChar (n % 10)).toNat - 48) = _
      rw [digitChar_toNat hm, List.length_append]
      have : ([digitChar (n % 10)]).length = 1 := rfl
      rw [this, pow_succ, ← mul_assoc]
      have hdm := Nat.div_add_mod n 10
      omega

theorem natDec_injective : Function.Injective natDec := by
  intro m n h
  have hd : natDecAux (m + 1) m = natDecAux (n + 1) n := congrArg String.data h
  have hm := fromDigits_natDecAux 0 m (m + 1) (Nat.lt_succ_self m)
  have hn := fromDigits_natDecAux 0 n (n + 1) (Nat.lt_succ_self n)
  rw [hd] at hm
  omega

/-! ## Whitespace trimming (model of Rust `str::trim`)

Rust trims the full Unicode `White_Space` class; the SQL strings the
tool trims only ever contain ASCII whitespace, which is what we model. -/

/-- ASCII whitespace test. -/
def isWS (c : Char) : Bool := c = ' ' || c = '\t' || c = '\n' || c = '\r'

/-- Model of Rust `str::trim`: drop leading and trailing whitespace. -/
def rustTrim (s : String) : String :=
  ⟨((s.data.dropWhile isWS).reverse.dropWhile isWS).reverse⟩

/-! ## UTF-8 byte-level operations -/

/-- Number of bytes of the UTF-8 encoding of a unicode scalar. -/
def utf8Width (c : Char) : Nat :=
  if c.toNat < 0x80 then 1
  else if c.toNat < 0x800 then 2
  else if c.toNat < 0x10000 then 3
  else 4

/-- UTF-8 byte length of a string: the model of Rust `str::len`. -/
def byteLen (s : String) : Nat := (s.data.map utf8Width).sum

/-- Model of byte slicing `&s[..n]`: the characters making up the first `n`
bytes, or `none` when `n` is not a character boundary (a Rust panic). -/
def takeBytes : List Char → Nat → Option (List Char)
  | _, 0 => some []
  | [], _ + 1 => none
  | c :: cs, n + 1 =>
    if utf8Width c ≤ n + 1 then (takeBytes cs (n + 1 - utf8Width c)).map (c :: ·)
    else none

/-! ## Substring and prefix tests -/

/-- Model of Rust `str::contains` for a literal pattern. -/
def containsSub (s pat : String) : Bool :=
  (List.range (s.data.length + 1)).any (fun i => pat.data.isPrefixOf (s.data.drop i))

/-- Model of Rust `str::starts_with`. -/
def startsWithS (s pat : String) : Bool := pat.data.isPrefixOf s.data

/-! ## Association lists (refinement of `HashMap<String, V>`) -/

/-- Lookup in an association list. -/
def lookupA {α : Type} (l : List (String × α)) (k : String) : Option α :=
  (l.find? (fun p => p.1 = k)).map (·.2)

/-- Key-membership test, as `HashMap::contains_key`. -/
def containsA {α : Type} (l : List (String × α)) (k : String) : Bool :=
  l.any (fun p => p.1 = k)

/-- Insertion as `HashMap::insert`: replace the value in place when the key
is present, append otherwise. -/
def insertA {α : Type} (l : List (String × α)) (k : String) (v : α) :
    List (String × α) :=
  if containsA l k then l.map (fun p => if p.1 = k then (k, v) else p)
  else l ++ [(k, v)]

/-- Model of `map.entry(k).or_default().push(v)` for `HashMap<String, Vec<_>>`. -/
def insertAppend (l : List (String × List String)) (k v : String) :
    List (String × List String) :=
  if containsA l k then l.map (fun p => if p.1 = k then (p.1, p.2 ++ [v]) else p)
  else l ++ [(k, [v])]

/-! ## Report data model (src/report/types.rs) -/

inductive ReportStatus
  | healthy
  | warning
  | critical
deriving DecidableEq

inductive Severity
  | warning
  | critical
deriving DecidableEq

inductive ActionType
  | recommendation
  | ddl_proposal
deriving DecidableEq

inductive Priority
  | high
  | medium
  | low
deriving DecidableEq

inductive TableType
  | table
  | materialized_view
deriving DecidableEq

structure Targets where
  endpoint : String
  database : String
  tables : List String
deriving DecidableEq

structure Summary where
  status : ReportStatus
  findings_count : Nat
  critical_count : Nat
  warning_count : Nat
deriving DecidableEq

structure PartsMetrics where
  database : String
  table : String
  parts_count : Nat
  active_parts : Nat
  total_rows : Nat
  bytes_on_disk : Nat
  oldest_part : Option String
  newest_part : Option String
deriving DecidableEq

structure MergeMetrics where
  database : String
  table : String
  merges_in_queue : Nat
  merge_rows_read : Nat
  merge_bytes_read : Nat
  max_merge_elapsed_sec : Rat
deriving DecidableEq

structure MutationMetrics where
  database : String
  table : String
  total_mutations : Nat
  active_mutations : Nat
  latest_mutation_time : Option String
  oldest_active_mutation_age_sec : Option Nat
deriving DecidableEq

structure DiskMetrics where
  disk_name : String
  path : String
  total_space : Nat
  free_space : Nat
  free_percent : Rat
deriving DecidableEq

structure QueryMetrics where
  query_fingerprint : String
  execution_count : Nat
  avg_duration_ms : Rat
  total_read_rows : Nat
  total_read_bytes : Nat
  total_result_rows : Nat
  read_amplification : Rat
  avg_memory_bytes : Nat
  sample_query : Option String
deriving DecidableEq

structure MvDagNode where
  name : String
  database : String
  table_type : TableType
  engine : String
  depth : Nat
deriving DecidableEq

structure MvDagEdge where
  from_ : String
  to_ : String
deriving DecidableEq

structure MvDagSection where
  nodes : List MvDagNode
  edges : List MvDagEdge
  max_depth : Nat
  total_tables : Nat
  total_mvs : Nat
deriving DecidableEq

structure PartsSection where
  tables : List PartsMetrics
deriving DecidableEq

structure MergesSection where
  tables : List MergeMetrics
deriving DecidableEq

structure MutationsSection where
  tables : List MutationMetrics
deriving DecidableEq

structure DiskSection where
  disks : List DiskMetrics
deriving DecidableEq

structure QueryLogSection where
  queries : List QueryMetrics
deriving DecidableEq

structure Sections where
  parts : Option PartsSection
  merges : Option MergesSection
  mutations : Option MutationsSection
  disk : Option DiskSection
  query_log : Option QueryLogSection
  mv_dag : Option MvDagSection
deriving DecidableEq

structure Finding where
  id : String
  rule_id : String
  severity : Severity
  target : String
  message : String
  evidence_refs : List String
  confidence : Rat
deriving DecidableEq

structure Action where
  id : String
  finding_ref : String
  action_type : ActionType
  priority : Priority
  description : String
  sql : Option String
deriving DecidableEq

structure Evidence where
  id : String
  source : String
  sql : String
  collected_at : String
deriving DecidableEq

structure Report where
  report_version : String
  report_id : String
  generated_at : String
  targets : Targets
  summary : Summary
  sections : Sections
  findings : List Finding
  actions : List Action
  evidence : List Evidence
deriving DecidableEq

/-! ## Evidence ledger (src/collectors/evidence.rs)

`collected_at` is stamped from the wall clock in the source; the clock
value enters the model as the explicit `now` argument. -/

structure EvidenceCollector where
  evidence : List Evidence
deriving DecidableEq

def EvidenceCollector.new : EvidenceCollector := ⟨[]⟩

/-- Record a piece of evidence; returns the assigned identifier together
with the extended ledger. -/
def EvidenceCollector.record (c : EvidenceCollector) (source sql now : String) :
    String × EvidenceCollector :=
  let id := "ev-" ++ pad3 (c.evidence.length + 1)
  (id, ⟨c.evidence ++
    [{ id := id, source := source, sql := rustTrim sql, collected_at := now }]⟩)

def EvidenceCollector.get_all (c : EvidenceCollector) : List Evidence := c.evidence

/-! ## Audit context (src/rules/context.rs) -/

/-- The `format!("{}.{}", database, table)` key. -/
def tableKey (db tbl : String) : String := db ++ "." ++ tbl

structure AuditContext where
  parts : List (String × PartsMetrics)
  merges : List (String × MergeMetrics)
  mutations : List (String × MutationMetrics)
  disk : List DiskMetrics
  queries : List QueryMetrics
deriving DecidableEq

def AuditContext.new : AuditContext := ⟨[], [], [], [], []⟩

def AuditContext.add_parts (ctx : AuditContext) (m : PartsMetrics) : AuditContext :=
  { ctx with parts := insertA ctx.parts (tableKey m.database m.table) m }

def AuditContext.add_merges (ctx : AuditContext) (m : MergeMetrics) : AuditContext :=
  { ctx with merges := insertA ctx.merges (tableKey m.database m.table) m }

def AuditContext.add_mutations (ctx : AuditContext) (m : MutationMetrics) :
    AuditContext :=
  { ctx with mutations := insertA ctx.mutations (tableKey m.database m.table) m }

def AuditContext.set_disk (ctx : AuditContext) (ms : List DiskMetrics) :
    AuditContext := { ctx with disk := ms }

def AuditContext.set_queries (ctx : AuditContext) (ms : List QueryMetrics) :
    AuditContext := { ctx with queries := ms }

/-! ## Rule results and the five default rules (src/rules/)

Rust float formatting (`{:.0}`, `{:.1}`) appears only inside
human-readable `message`/`description` strings, which no claim
inspects; the two formatters below render the mathematically rounded
value without reproducing the exact f64 rounding-mode.  A rule
evaluation that can panic (the query rule, through byte slicing) is
`Option`-valued; the total rules produce plain lists. -/

structure RuleResult where
  finding : Finding
  actions : List Action
deriving DecidableEq

/-- Best-effort model of Rust `format!("{:.0}", x)`. -/
def fmtRat0 (q : Rat) : String := natDec (round q).toNat

/-- Best-effort model of Rust `format!("{:.1}", x)`. -/
def fmtRat1 (q : Rat) : String :=
  let t := (round (q * 10)).toNat
  natDec (t / 10) ++ "." ++ natDec (t % 10)

/-- One table entry of `PartsExplosionRule::evaluate`: the banded finding
and its action, or nothing below the warning threshold.  `idx` is the
1-based value of `results.len() + 1` at push time. -/
def partsResult (idx : Nat) (k : String) (m : PartsMetrics) : Option RuleResult :=
  if m.active_parts > 1000 then
    some
      { finding :=
          { id := "f-parts-" ++ natDec idx, rule_id := "parts_explosion",
            severity := Severity.critical, target := k,
            message := "Table has " ++ natDec m.active_parts ++
              " active parts, exceeding critical threshold of 1000",
            evidence_refs := [], confidence := 1 },
        actions :=
          [{ id := "a-parts-" ++ natDec idx,
             finding_ref := "f-parts-" ++ natDec idx,
             action_type := ActionType.recommendation, priority := Priority.high,
             description := "Run OPTIMIZE TABLE to reduce parts count",
             sql := some ("OPTIMIZE TABLE " ++ k ++ " FINAL") }] }
  else if m.active_parts > 300 then
    some
      { finding :=
          { id := "f-parts-" ++ natDec idx, rule_id := "parts_explosion",
            severity := Severity.warning, target := k,
            message := "Table has " ++ natDec m.active_parts ++
              " active parts, exceeding warning threshold of 300",
            evidence_refs := [], confidence := 1 },
        actions :=
          [{ id := "a-parts-" ++ natDec idx,
             finding_ref := "f-parts-" ++ natDec idx,
             action_type := ActionType.recommendation, priority := Priority.medium,
             description := "Consider running OPTIMIZE TABLE to reduce parts",
             sql := some ("OPTIMIZE TABLE " ++ k ++ " FINAL") }] }
  else none

def partsEvalGo : Nat → List (String × PartsMetrics) → List RuleResult
  | _, [] => []
  | n, e :: es =>
    match partsResult (n + 1) e.1 e.2 with
    | some r => r :: partsEvalGo (n + 1) es
    | none => partsEvalGo n es

def PartsExplosionRule.evaluate (ctx : AuditContext) : List RuleResult :=
  partsEvalGo 0 ctx.parts

/-- One table entry of `MergeBacklogRule::evaluate`. -/
def mergeResult (idx : Nat) (k : String) (m : MergeMetrics) : Option RuleResult :=
  let queue_high := m.merges_in_queue > 10
  let elapsed_high := m.max_merge_elapsed_sec > 3600
  if queue_high || elapsed_high then
    let message :=
      if queue_high && elapsed_high then
        "Merge queue has " ++ natDec m.merges_in_queue ++
          " items and longest merge running for " ++
          fmtRat0 m.max_merge_elapsed_sec ++ "s"
      else if queue_high then
        "Merge queue has " ++ natDec m.merges_in_queue ++ " items (threshold: 10)"
      else
        "Longest merge running for " ++ fmtRat0 m.max_merge_elapsed_sec ++
          "s (threshold: 3600s)"
    some
      { finding :=
          { id := "f-merge-" ++ natDec idx, rule_id := "merge_backlog",
            severity := Severity.warning, target := k, message := message,
            evidence_refs := [], confidence := 1 },
        actions :=
          [{ id := "a-merge-" ++ natDec idx,
             finding_ref := "f-merge-" ++ natDec idx,
             action_type := ActionType.recommendation, priority := Priority.medium,
             description := "Review write rate, consider throttling ingestion",
             sql := none }] }
  else none

def mergeEvalGo : Nat → List (String × MergeMetrics) → List RuleResult
  | _, [] => []
  | n, e :: es =>
    match mergeResult (n + 1) e.1 e.2 with
    | some r => r :: mergeEvalGo (n + 1) es
    | none => mergeEvalGo n es

def MergeBacklogRule.evaluate (ctx : AuditContext) : List RuleResult :=
  mergeEvalGo 0 ctx.merges

/-- One disk entry of `DiskHeadroomRule::evaluate`. -/
def diskResult (idx : Nat) (d : DiskMetrics) : Option RuleResult :=
  let free_gb : Rat := (d.free_space : Rat) / 1073741824
  if d.free_percent < 10 then
    some
      { finding :=
          { id := "f-disk-" ++ natDec idx, rule_id := "disk_headroom",
            severity := Severity.critical, target := d.disk_name,
            message := "Disk " ++ d.disk_name ++ " has only " ++
              fmtRat1 d.free_percent ++ "% free (" ++ fmtRat1 free_gb ++ "GB)",
            evidence_refs := [], confidence := 1 },
        actions :=
          [{ id := "a-disk-" ++ natDec idx,
             finding_ref := "f-disk-" ++ natDec idx,
             action_type := ActionType.recommendation, priority := Priority.high,
             description := "Expand storage or implement TTL policy urgently",
             sql := none }] }
  else if d.free_percent < 20 then
    some
      { finding :=
          { id := "f-disk-" ++ natDec idx, rule_id := "disk_headroom",
            severity := Severity.warning, target := d.disk_name,
            message := "Disk " ++ d.disk_name ++ " has only " ++
              fmtRat1 d.free_percent ++ "% free (" ++ fmtRat1 free_gb ++ "GB)",
            evidence_refs := [], confidence := 1 },
        actions :=
          [{ id := "a-disk-" ++ natDec idx,
             finding_ref := "f-disk-" ++ natDec idx,
             action_type := ActionType.recommendation, priority := Priority.medium,
             description := "Consider expanding storage or implementing TTL",
             sql := none }] }
  else none

def diskEvalGo : Nat → List DiskMetrics → List RuleResult
  | _, [] => []
  | n, d :: ds =>
    match diskResult (n + 1) d with
    | some r => r :: diskEvalGo (n + 1) ds
    | none => diskEvalGo n ds

def DiskHeadroomRule.evaluate (ctx : AuditContext) : List RuleResult :=
  diskEvalGo 0 ctx.disk

/-- Model of `truncate_fingerprint` (src/rules/query.rs): Rust compares
and slices by UTF-8 bytes; slicing off a character boundary panics,
modelled as `none`. -/
def truncate_fingerprint (fp : String) : Option String :=
  if byteLen fp > 80 then (takeBytes fp.data 77).map (fun l => String.mk l ++ "...")
  else some fp

def queryCritResult (idx : Nat) (tgt : String) (amp : Rat) : RuleResult :=
  { finding :=
      { id := "f-query-" ++ natDec idx, rule_id := "query_amplification",
        severity := Severity.critical, target := tgt,
        message := "Query has " ++ fmtRat0 amp ++
          "x read amplification (critical threshold: 1000x)",
        evidence_refs := [], confidence := 1 },
    actions :=
      [{ id := "a-query-" ++ natDec idx, finding_ref := "f-query-" ++ natDec idx,
         action_type := ActionType.recommendation, priority := Priority.high,
         description := "Review query, add PREWHERE or adjust ORDER BY",
         sql := none }] }

def queryWarnResult (idx : Nat) (tgt : String) (amp : Rat) : RuleResult :=
  { finding :=
      { id := "f-query-" ++ natDec idx, rule_id := "query_amplification",
        severity := Severity.warning, target := tgt,
        message := "Query has " ++ fmtRat0 amp ++
          "x read amplification (warning threshold: 100x)",
        evidence_refs := [], confidence := 1 },
    actions :=
      [{ id := "a-query-" ++ natDec idx, finding_ref := "f-query-" ++ natDec idx,
         action_type := ActionType.recommendation, priority := Priority.medium,
         description := "Consider optimizing query pattern", sql := none }] }

def queryEvalGo : Nat → List QueryMetrics → Option (List RuleResult)
  | _, [] => some []
  | n, q :: qs =>
    if q.read_amplification > 1000 then
      match truncate_fingerprint q.query_fingerprint with
      | none => none
      | some tgt =>
        (queryEvalGo (n + 1) qs).map
          (fun rs => queryCritResult (n + 1) tgt q.read_amplification :: rs)
    else if q.read_amplification > 100 then
      match truncate_fingerprint q.query_fingerprint with
      | none => none
      | some tgt =>
        (queryEvalGo (n + 1) qs).map
          (fun rs => queryWarnResult (n + 1) tgt q.read_amplification :: rs)
    else queryEvalGo n qs

def QueryAmplificationRule.evaluate (ctx : AuditContext) :
    Option (List RuleResult) := queryEvalGo 0 ctx.queries

/-- The single-quote character, used by the mutation SQL template. -/
def squote : String := ⟨[Char.ofNat 39]⟩

/-- One table entry of `StuckMutationRule::evaluate`. -/
def mutationResult (idx : Nat) (k : String) (m : MutationMetrics) :
    Option RuleResult :=
  if m.active_mutations > 0 then
    match m.oldest_active_mutation_age_sec with
    | some age =>
      if age > 3600 then
        some
          { finding :=
              { id := "f-mutation-" ++ natDec idx, rule_id := "stuck_mutation",
                severity := Severity.critical, target := k,
                message := "Mutation running for " ++
                  fmtRat1 ((age : Rat) / 3600) ++ " hours (threshold: 1 hour)",
                evidence_refs := [], confidence := 1 },
            actions :=
              [{ id := "a-mutation-" ++ natDec idx,
                 finding_ref := "f-mutation-" ++ natDec idx,
                 action_type := ActionType.recommendation,
                 priority := Priority.high,
                 description :=
                   "Investigate mutation, consider KILL MUTATION if stuck",
                 sql := some ("SELECT * FROM system.mutations WHERE database = " ++
                   squote ++ m.database ++ squote ++ " AND table = " ++ squote ++
                   m.table ++ squote ++ " AND is_done = 0") }] }
      else none
    | none => none
  else none

def mutationEvalGo : Nat → List (String × MutationMetrics) → List RuleResult
  | _, [] => []
  | n, e :: es =>
    match mutationResult (n + 1) e.1 e.2 with
    | some r => r :: mutationEvalGo (n + 1) es
    | none => mutationEvalGo n es

def StuckMutationRule.evaluate (ctx : AuditContext) : List RuleResult :=
  mutationEvalGo 0 ctx.mutations

/-! ## Rule registry (src/rules/engine.rs, src/rules/mod.rs) -/

structure RuleT where
  rid : String
  rname : String
  evaluate : AuditContext → Option (List RuleResult)

structure RuleRegistry where
  rules : List RuleT

def RuleRegistry.new : RuleRegistry := ⟨[]⟩

def RuleRegistry.register (reg : RuleRegistry) (r : RuleT) : RuleRegistry :=
  ⟨reg.rules ++ [r]⟩

def evalAllGo (ctx : AuditContext) : List RuleT → Option (List RuleResult)
  | [] => some []
  | r :: rs =>
    match r.evaluate ctx with
    | none => none
    | some a => (evalAllGo ctx rs).map (a ++ ·)

def RuleRegistry.evaluate_all (reg : RuleRegistry) (ctx : AuditContext) :
    Option (List RuleResult) := evalAllGo ctx reg.rules

def partsRuleT : RuleT :=
  ⟨"parts_explosion", "Parts Explosion",
    fun ctx => some (PartsExplosionRule.evaluate ctx)⟩

def mergeRuleT : RuleT :=
  ⟨"merge_backlog", "Merge Backlog",
    fun ctx => some (MergeBacklogRule.evaluate ctx)⟩

def diskRuleT : RuleT :=
  ⟨"disk_headroom", "Disk Headroom",
    fun ctx => some (DiskHeadroomRule.evaluate ctx)⟩

def queryRuleT : RuleT :=
  ⟨"query_amplification", "Query Read Amplification",
    QueryAmplificationRule.evaluate⟩

def mutationRuleT : RuleT :=
  ⟨"stuck_mutation", "Stuck Mutation",
    fun ctx => some (StuckMutationRule.evaluate ctx)⟩

def RuleRegistry.with_default_rules : RuleRegistry :=
  ⟨[partsRuleT, mergeRuleT, diskRuleT, queryRuleT, mutationRuleT]⟩

/-! ## Report builder (src/report/builder.rs) -/

structure ReportBuilder where
  targets : Targets
  evidence : EvidenceCollector
  parts : List (String × PartsMetrics)
  merges : List (String × MergeMetrics)
  mutations : List (String × MutationMetrics)
  disk : List DiskMetrics
  queries : List QueryMetrics
  mv_dag : Option MvDagSection
  findings : List Finding
  actions : List Action
deriving DecidableEq

def ReportBuilder.new (targets : Targets) : ReportBuilder :=
  { targets := targets, evidence := EvidenceCollector.new, parts := [],
    merges := [], mutations := [], disk := [], queries := [], mv_dag := none,
    findings := [], actions := [] }

def ReportBuilder.with_parts (b : ReportBuilder) (metrics : List PartsMetrics)
    (sql now : String) : ReportBuilder :=
  { b with
    evidence := (b.evidence.record "system.parts" sql now).2,
    parts := metrics.foldl
      (fun acc m => insertA acc (tableKey m.database m.table) m) b.parts }

def ReportBuilder.with_merges (b : ReportBuilder) (metrics : List MergeMetrics)
    (sql now : String) : ReportBuilder :=
  { b with
    evidence := (b.evidence.record "system.merges" sql now).2,
    merges := metrics.foldl
      (fun acc m => insertA acc (tableKey m.database m.table) m) b.merges }

def ReportBuilder.with_mutations (b : ReportBuilder)
    (metrics : List MutationMetrics) (sql now : String) : ReportBuilder :=
  { b with
    evidence := (b.evidence.record "system.mutations" sql now).2,
    mutations := metrics.foldl
      (fun acc m => insertA acc (tableKey m.database m.table) m) b.mutations }

def ReportBuilder.with_disk (b : ReportBuilder) (metrics : List DiskMetrics)
    (sql now : String) : ReportBuilder :=
  { b with
    evidence := (b.evidence.record "system.disks" sql now).2,
    disk := metrics }

def ReportBuilder.with_queries (b : ReportBuilder) (metrics : List QueryMetrics)
    (sql now : String) : ReportBuilder :=
  { b with
    evidence := (b.evidence.record "system.query_log" sql now).2,
    queries := metrics }

def ReportBuilder.with_mv_dag (b : ReportBuilder) (dag : MvDagSection)
    (sql now : String) : ReportBuilder :=
  { b with
    evidence := (b.evidence.record "system.tables" sql now).2,
    mv_dag := some dag }

def ReportBuilder.build_context (b : ReportBuilder) : AuditContext :=
  let ctx := AuditContext.new
  let ctx := (b.parts.map (·.2)).foldl AuditContext.add_parts ctx
  let ctx := (b.merges.map (·.2)).foldl AuditContext.add_merges ctx
  let ctx := (b.mutations.map (·.2)).foldl AuditContext.add_mutations ctx
  let ctx := ctx.set_disk b.disk
  ctx.set_queries b.queries

def ReportBuilder.run_rules (b : ReportBuilder) (reg : RuleRegistry) :
    Option ReportBuilder :=
  match reg.evaluate_all b.build_context with
  | none => none
  | some results =>
    some { b with
      findings := b.findings ++ results.map (·.finding),
      actions := b.actions ++ (results.map (·.actions)).flatten }

/-- Model of `ReportBuilder::build`.  The uuid report id and the
generation timestamp come from the environment and enter as arguments. -/
def ReportBuilder.build (b : ReportBuilder) (report_id generated_at : String) :
    Report :=
  let critical_count :=
    (b.findings.filter (fun f => decide (f.severity = Severity.critical))).length
  let warning_count :=
    (b.findings.filter (fun f => decide (f.severity = Severity.warning))).length
  { report_version := "1.0.0", report_id := report_id,
    generated_at := generated_at, targets := b.targets,
    summary :=
      { status :=
          if critical_count > 0 then ReportStatus.critical
          else if warning_count > 0 then ReportStatus.warning
          else ReportStatus.healthy,
        findings_count := b.findings.length,
        critical_count := critical_count, warning_count := warning_count },
    sections :=
      { parts := if b.parts.isEmpty then none else some ⟨b.parts.map (·.2)⟩,
        merges := if b.merges.isEmpty then none else some ⟨b.merges.map (·.2)⟩,
        mutations :=
          if b.mutations.isEmpty then none else some ⟨b.mutations.map (·.2)⟩,
        disk := if b.disk.isEmpty then none else some ⟨b.disk⟩,
        query_log := if b.queries.isEmpty then none else some ⟨b.queries⟩,
        mv_dag := b.mv_dag },
    findings := b.findings, actions := b.actions,
    evidence := b.evidence.get_all }

/-! ## MV DAG collector (src/collectors/mv_dag.rs)

The `while changed` relaxation of `calculate_depths` has no bound in
the source; the model runs it on explicit fuel and returns `none` when
the fuel is exhausted before a pass without changes.  The source also
builds a `depended_by` map that no later code reads; it is omitted. -/

structure TableRow where
  database : String
  name : String
  engine : String
deriving DecidableEq

structure DependencyRow where
  database : String
  name : String
  dep_database : String
  dep_table : String
deriving DecidableEq

def buildDependsOn (dependencies : List DependencyRow) :
    List (String × List String) :=
  dependencies.foldl
    (fun m d =>
      insertAppend m (tableKey d.database d.name)
        (tableKey d.dep_database d.dep_table)) []

/-- Root initialisation of `calculate_depths`: every table key that is
not a key of the dependency map starts at depth 0. -/
def rootInit (tkeys : List String) (dependsOn : List (String × List String)) :
    List (String × Nat) :=
  tkeys.foldl (fun acc k => if containsA dependsOn k then acc else insertA acc k 0) []

/-- `deps.iter().filter_map(|d| depths.get(d)).max()`. -/
def maxDepDepth (depths : List (String × Nat)) (deps : List String) : Option Nat :=
  (deps.filterMap (lookupA depths)).max?

/-- The body of the `for (table, deps) in depends_on` loop for one entry. -/
def relaxStep (db : String) (st : List (String × Nat) × Bool)
    (tv : String × List String) : List (String × Nat) × Bool :=
  if startsWithS tv.1 (db ++ ".") then
    match maxDepDepth st.1 tv.2 with
    | some m =>
      match lookupA st.1 tv.1 with
      | some cur => if cur < m + 1 then (insertA st.1 tv.1 (m + 1), true) else st
      | none => (insertA st.1 tv.1 (m + 1), true)
    | none => st
  else st

/-- One full pass of the relaxation over the dependency map. -/
def relaxPass (dependsOn : List (String × List String)) (db : String)
    (depths : List (String × Nat)) : List (String × Nat) × Bool :=
  dependsOn.foldl (relaxStep db) (depths, false)

/-- The `while changed` loop, on fuel. -/
def relaxLoop (dependsOn : List (String × List String)) (db : String) :
    Nat → List (String × Nat) → Option (List (String × Nat))
  | 0, _ => none
  | fuel + 1, depths =>
    let p := relaxPass dependsOn db depths
    if p.2 then relaxLoop dependsOn db fuel p.1 else some p.1

def MvDagCollector.calculate_depths (fuel : Nat) (tables : List TableRow)
    (dependsOn : List (String × List String)) (db : String) :
    Option (List (String × Nat)) :=
  relaxLoop dependsOn db fuel
    (rootInit (tables.map (fun t => tableKey t.database t.name)) dependsOn)

def MvDagCollector.build_dag (fuel : Nat) (db : String) (tables : List TableRow)
    (dependencies : List DependencyRow) : Option MvDagSection :=
  let dependsOn := buildDependsOn dependencies
  match MvDagCollector.calculate_depths fuel tables dependsOn db with
  | none => none
  | some depths =>
    let mv_count :=
      (tables.filter (fun t => containsSub t.engine "MaterializedView")).length
    some
      { nodes := tables.map (fun t =>
          { name := t.name, database := t.database,
            table_type :=
              if containsSub t.engine "MaterializedView" then
                TableType.materialized_view
              else TableType.table,
            engine := t.engine,
            depth := (lookupA depths (tableKey t.database t.name)).getD 0 }),
        edges := dependencies.map (fun d =>
          { from_ := tableKey d.dep_database d.dep_table,
            to_ := tableKey d.database d.name }),
        max_depth := ((depths.map (·.2)).max?).getD 0,
        total_tables := tables.length - mv_count,
        total_mvs := mv_count }

/-! ## Association-list lemmas -/

theorem lookupA_nil {α : Type} (k : String) : lookupA ([] : List (String × α)) k = none := rfl

theorem lookupA_cons {α : Type} (p : String × α) (l : List (String × α)) (k : String) :
    lookupA (p :: l) k = if p.1 = k then some p.2 else lookupA l k := by
  by_cases h : p.1 = k
  · simp [lookupA, List.find?_cons_of_pos, h]
  · simp [lookupA, List.find?_cons_of_neg, h]

theorem containsA_cons {α : Type} (p : String × α) (l : List (String × α)) (k : String) :
    containsA (p :: l) k = (decide (p.1 = k) || containsA l k) := by
  simp [containsA]

theorem lookupA_append {α : Type} (l₁ l₂ : List (String × α)) (k : String) :
    lookupA (l₁ ++ l₂) k =
      match lookupA l₁ k with
      | some v => some v
      | none => lookupA l₂ k := by
  induction l₁ with
  | nil => simp [lookupA_nil]
  | cons p rest ih =>
    rw [List.cons_append, lookupA_cons, lookupA_cons]
    by_cases h : p.1 = k
    · simp [h]
    · simp [h, ih]

theorem lookupA_replaceAll {α : Type} (l : List (String × α)) (k' k : String) (v : α) :
    lookupA (l.map (fun p => if p.1 = k' then (k', v) else p)) k =
      if k' = k then (if containsA l k then some v else none)
      else lookupA l k := by
  by_cases hk : k' = k
  · subst hk
    induction l with
    | nil => simp [lookupA_nil, containsA]
    | cons p rest ih =>
      rw [List.map_cons, lookupA_cons, containsA_cons]
      by_cases hp : p.1 = k'
      · simp [hp]
      · simp only [if_neg hp, lookupA_cons, if_neg hp, ih]
        simp [hp]
  · induction l with
    | nil => simp [hk, lookupA_nil]
    | cons p rest ih =>
      rw [List.map_cons, lookupA_cons, lookupA_cons]
      by_cases hp : p.1 = k'
      · have hpk : ¬ p.1 = k := by rw [hp]; exact hk
        simp only [if_pos hp]
        simp [hpk, hk, ih]
      · simp only [if_neg hp]
        by_cases hpk : p.1 = k
        · simp [hpk, hk]
        · simp [hpk, ih, hk]

theorem containsA_eq_false_lookupA {α : Type} (l : List (String × α)) (k : String)
    (h : containsA l k = false) : lookupA l k = none := by
  induction l with
  | nil => rfl
  | cons p rest ih =>
    rw [containsA_cons] at h
    rw [lookupA_cons]
    rcases Bool.or_eq_false_iff.mp h with ⟨h1, h2⟩
    simp only [decide_eq_false_iff_not] at h1
    simp [h1, ih h2]

theorem lookupA_insertA {α : Type} (l : List (String × α)) (k' k : String) (v : α) :
    lookupA (insertA l k' v) k = if k' = k then some v else lookupA l k := by
  unfold insertA
  by_cases hc : containsA l k'
  · rw [if_pos hc, lookupA_replaceAll]
    by_cases hk : k' = k
    · subst hk
      simp [hc]
    · simp [hk]
  · rw [if_neg hc, lookupA_append]
    by_cases hk : k' = k
    · subst hk
      rw [containsA_eq_false_lookupA l k' (by simpa using hc)]
      simp [lookupA_cons]
    · by_cases hl : (lookupA l k).isSome
      · rcases Option.isSome_iff_exists.mp hl with ⟨w, hw⟩
        simp [hw, hk]
      · have hnone : lookupA l k = none := Option.not_isSome_iff_eq_none.mp hl
        simp [hnone, hk, lookupA_cons, lookupA_nil]

/-- First-some choice on options. -/
def orElseO {α : Type} (a b : Option α) : Option α :=
  match a with
  | some v => some v
  | none => b

/-- Lookup after folding `insertA` over a batch of values keyed by `keyf`:
the last batch element with the requested key wins, otherwise the original
binding shows through. -/
theorem lookupA_foldl_insertA {α : Type} (keyf : α → String) (ms : List α)
    (init : List (String × α)) (k : String) :
    lookupA (ms.foldl (fun acc m => insertA acc (keyf m) m) init) k =
      orElseO (ms.reverse.find? (fun m => decide (keyf m = k)))
        (lookupA init k) := by
  induction ms generalizing init with
  | nil => simp [orElseO]
  | cons m rest ih =>
    rw [List.foldl_cons, ih, List.reverse_cons, List.find?_append]
    cases hr : rest.reverse.find? (fun m => decide (keyf m = k)) with
    | some x => simp [orElseO]
    | none =>
      by_cases hk : keyf m = k
      · simp [orElseO, List.find?, hk, lookupA_insertA]
      · simp [orElseO, List.find?, hk, lookupA_insertA]

/-! ## C1: summary counts and status derivation -/

theorem sev_filter_split (l : List Finding) :
    (l.filter (fun f => decide (f.severity = Severity.critical))).length +
      (l.filter (fun f => decide (f.severity = Severity.warning))).length =
      l.length := by
  induction l with
  | nil => rfl
  | cons f fs ih =>
    cases h : f.severity <;> simp [List.filter_cons, h] <;> omega

theorem status_spec (c w n : Nat) (hsum : c + w = n) :
    ((if 0 < c then ReportStatus.critical
      else if 0 < w then ReportStatus.warning
      else ReportStatus.healthy) = ReportStatus.critical ↔ 0 < c) ∧
    ((if 0 < c then ReportStatus.critical
      else if 0 < w then ReportStatus.warning
      else ReportStatus.healthy) = ReportStatus.warning ↔ c = 0 ∧ 0 < w) ∧
    ((if 0 < c then ReportStatus.critical
      else if 0 < w then ReportStatus.warning
      else ReportStatus.healthy) = ReportStatus.healthy ↔ n = 0) := by
  by_cases hc : 0 < c
  · rw [if_pos hc]
    refine ⟨⟨fun _ => hc, fun _ => rfl⟩, ?_, ?_⟩
    · exact ⟨fun h => absurd h (by decide), fun h => absurd h.1 (by omega)⟩
    · exact ⟨fun h => absurd h (by decide), fun h => absurd hc (by omega)⟩
  · rw [if_neg hc]
    by_cases hw : 0 < w
    · rw [if_pos hw]
      refine ⟨?_, ⟨fun _ => ⟨by omega, hw⟩, fun _ => rfl⟩, ?_⟩
      · exact ⟨fun h => absurd h (by decide), fun h => absurd h hc⟩
      · exact ⟨fun h => absurd h (by decide), fun h => absurd hw (by omega)⟩
    · rw [if_neg hw]
      refine ⟨?_, ?_, ⟨fun _ => by omega, fun _ => rfl⟩⟩
      · exact ⟨fun h => absurd h (by decide), fun h => absurd h hc⟩
      · exact ⟨fun h => absurd h (by decide), fun h => absurd h.2 hw⟩

/-- C1: in every built report the summary counts agree with the findings
list (total, critical, warning), and the overall status is critical iff
there is a critical finding, warning iff there is no critical finding but
a warning one, and healthy iff there are no findings at all. -/
theorem build_summary_invariants (b : ReportBuilder) (rid ts : String) :
    (b.build rid ts).summary.findings_count = (b.build rid ts).findings.length ∧
    (b.build rid ts).summary.critical_count =
      ((b.build rid ts).findings.filter
        (fun f => decide (f.severity = Severity.critical))).length ∧
    (b.build rid ts).summary.warning_count =
      ((b.build rid ts).findings.filter
        (fun f => decide (f.severity = Severity.warning))).length ∧
    ((b.build rid ts).summary.status = ReportStatus.critical ↔
      0 < (b.build rid ts).summary.critical_count) ∧
    ((b.build rid ts).summary.status = ReportStatus.warning ↔
      (b.build rid ts).summary.critical_count = 0 ∧
        0 < (b.build rid ts).summary.warning_count) ∧
    ((b.build rid ts).summary.status = ReportStatus.healthy ↔
      (b.build rid ts).summary.findings_count = 0) := by
  have hs := status_spec
    (b.findings.filter (fun f => decide (f.severity = Severity.critical))).length
    (b.findings.filter (fun f => decide (f.severity = Severity.warning))).length
    b.findings.length (sev_filter_split b.findings)
  exact ⟨rfl, rfl, rfl, hs.1, hs.2.1, hs.2.2⟩

/-! ## C3: evidence ledger identifiers -/

/-- Driver folding `EvidenceCollector::record` over a call list of
(source, sql, now) triples. -/
def recordAll (c : EvidenceCollector) (calls : List (String × String × String)) :
    EvidenceCollector :=
  calls.foldl (fun c x => (c.record x.1 x.2.1 x.2.2).2) c

/-- The ledger entries a call list produces, starting after `n` existing
entries. -/
def expectedEntries : Nat → List (String × String × String) → List Evidence
  | _, [] => []
  | n, x :: rest =>
    ⟨"ev-" ++ pad3 (n + 1), x.1, rustTrim x.2.1, x.2.2⟩ :: expectedEntries (n + 1) rest

theorem record_evidence (c : EvidenceCollector) (s q t : String) :
    ((c.record s q t).2).evidence =
      c.evidence ++ [⟨"ev-" ++ pad3 (c.evidence.length + 1), s, rustTrim q, t⟩] := rfl

theorem expectedEntries_cons (n : Nat) (x : String × String × String)
    (rest : List (String × String × String)) :
    expectedEntries n (x :: rest) =
      ⟨"ev-" ++ pad3 (n + 1), x.1, rustTrim x.2.1, x.2.2⟩ ::
        expectedEntries (n + 1) rest := rfl

theorem recordAll_evidence (c : EvidenceCollector)
    (calls : List (String × String × String)) :
    (recordAll c calls).evidence =
      c.evidence ++ expectedEntries c.evidence.length calls := by
  induction calls generalizing c with
  | nil => simp [recordAll, expectedEntries]
  | cons x rest ih =>
    show (recordAll ((c.record x.1 x.2.1 x.2.2).2) rest).evidence = _
    rw [ih, record_evidence, expectedEntries_cons]
    simp [List.append_assoc]

theorem expectedEntries_length (n : Nat) (calls : List (String × String × String)) :
    (expectedEntries n calls).length = calls.length := by
  induction calls generalizing n with
  | nil => rfl
  | cons x rest ih =>
    rw [expectedEntries_cons, List.length_cons, List.length_cons, ih]

theorem expectedEntries_getElem (n : Nat) (calls : List (String × String × String))
    (i : Nat) (h : i < calls.length) :
    (expectedEntries n calls)[i]? =
      some ⟨"ev-" ++ pad3 (n + i + 1), (calls.get ⟨i, h⟩).1,
        rustTrim (calls.get ⟨i, h⟩).2.1, (calls.get ⟨i, h⟩).2.2⟩ := by
  induction calls generalizing n i with
  | nil => exact absurd h (by simp)
  | cons x rest ih =>
    cases i with
    | zero =>
      rw [expectedEntries_cons]
      simp
    | succ j =>
      rw [expectedEntries_cons]
      have hj : j < rest.length := by simpa using h
      have := ih (n + 1) j hj
      simp only [List.getElem?_cons_succ]
      rw [this]
      have : n + 1 + j = n + (j + 1) := by omega
      rw [this]
      rfl

/-- C3: after any sequence of `n` record calls the ledger holds exactly
`n` entries; the `i`-th entry (0-based) has identifier `ev-` followed by
the zero-padded decimal of `i + 1`, in insertion order with no gaps, and
its sql is the call argument with surrounding whitespace removed.
Moreover every `with_*` builder method makes exactly one record call,
growing the ledger by exactly one entry even for empty metrics. -/
theorem evidence_ledger_ids (calls : List (String × String × String)) (i : Nat)
    (h : i < calls.length) :
    (recordAll EvidenceCollector.new calls).evidence.length = calls.length ∧
    (recordAll EvidenceCollector.new calls).evidence[i]? =
      some ⟨"ev-" ++ pad3 (i + 1), (calls.get ⟨i, h⟩).1,
        rustTrim (calls.get ⟨i, h⟩).2.1, (calls.get ⟨i, h⟩).2.2⟩ ∧
    (∀ b ms sql now, (ReportBuilder.with_parts b ms sql now).evidence.evidence.length =
      b.evidence.evidence.length + 1) ∧
    (∀ b ms sql now, (ReportBuilder.with_merges b ms sql now).evidence.evidence.length =
      b.evidence.evidence.length + 1) ∧
    (∀ b ms sql now, (ReportBuilder.with_mutations b ms sql now).evidence.evidence.length =
      b.evidence.evidence.length + 1) ∧
    (∀ b ms sql now, (ReportBuilder.with_disk b ms sql now).evidence.evidence.length =
      b.evidence.evidence.length + 1) ∧
    (∀ b ms sql now, (ReportBuilder.with_queries b ms sql now).evidence.evidence.length =
      b.evidence.evidence.length + 1) ∧
    (∀ b dag sql now, (ReportBuilder.with_mv_dag b dag sql now).evidence.evidence.length =
      b.evidence.evidence.length + 1) := by
  refine ⟨?_, ?_, ?_, ?_, ?_, ?_, ?_, ?_⟩
  · rw [recordAll_evidence]
    show (expectedEntries 0 calls).length = calls.length
    exact expectedEntries_length 0 calls
  · rw [recordAll_evidence]
    show (expectedEntries 0 calls)[i]? = _
    rw [expectedEntries_getElem 0 calls i h]
    have hz : (0 : Nat) + i + 1 = i + 1 := by omega
    rw [hz]
  all_goals intro b ms sql now
  all_goals simp [ReportBuilder.with_parts, ReportBuilder.with_merges,
    ReportBuilder.with_mutations, ReportBuilder.with_disk,
    ReportBuilder.with_queries, ReportBuilder.with_mv_dag, record_evidence]

theorem evidence_ledger_ids_witness :
    (1 < ([("system.parts", " SELECT 1 ", "t0"), ("system.merges", "SELECT 2", "t1")] :
      List (String × String × String)).length) ∧
    ((recordAll EvidenceCollector.new
        [("system.parts", " SELECT 1 ", "t0"), ("system.merges", "SELECT 2", "t1")]).evidence[1]? =
      some ⟨"ev-002", "system.merges", "SELECT 2", "t1"⟩) := by
  have h : 1 < ([("system.parts", " SELECT 1 ", "t0"), ("system.merges", "SELECT 2", "t1")] :
      List (String × String × String)).length := by decide
  have := evidence_ledger_ids
    [("system.parts", " SELECT 1 ", "t0"), ("system.merges", "SELECT 2", "t1")] 1 h
  refine ⟨h, ?_⟩
  rw [this.2.1]
  rfl

/-! ## C8: section presence -/

/-- C8: a built report carries each of the parts, merges, mutations, disk
and query_log sections iff the corresponding collected store is
non-empty, and the mv_dag section follows the builder's option exactly:
absent on a fresh builder, set by `with_mv_dag`, untouched by the other
`with_*` methods. -/
theorem sections_presence :
    (∀ (b : ReportBuilder) (rid ts : String),
      ((b.build rid ts).sections.parts.isSome ↔ b.parts ≠ []) ∧
      ((b.build rid ts).sections.merges.isSome ↔ b.merges ≠ []) ∧
      ((b.build rid ts).sections.mutations.isSome ↔ b.mutations ≠ []) ∧
      ((b.build rid ts).sections.disk.isSome ↔ b.disk ≠ []) ∧
      ((b.build rid ts).sections.query_log.isSome ↔ b.queries ≠ []) ∧
      ((b.build rid ts).sections.mv_dag = b.mv_dag)) ∧
    (∀ t, (ReportBuilder.new t).mv_dag = none) ∧
    (∀ b dag sql now, (ReportBuilder.with_mv_dag b dag sql now).mv_dag = some dag) ∧
    (∀ b ms sql now, (ReportBuilder.with_parts b ms sql now).mv_dag = b.mv_dag) ∧
    (∀ b ms sql now, (ReportBuilder.with_merges b ms sql now).mv_dag = b.mv_dag) ∧
    (∀ b ms sql now, (ReportBuilder.with_mutations b ms sql now).mv_dag = b.mv_dag) ∧
    (∀ b ms sql now, (ReportBuilder.with_disk b ms sql now).mv_dag = b.mv_dag) ∧
    (∀ b ms sql now, (ReportBuilder.with_queries b ms sql now).mv_dag = b.mv_dag) := by
  refine ⟨?_, fun t => rfl, fun b dag sql now => rfl, fun b ms sql now => rfl,
    fun b ms sql now => rfl, fun b ms sql now => rfl, fun b ms sql now => rfl,
    fun b ms sql now => rfl⟩
  intro b rid ts
  refine ⟨?_, ?_, ?_, ?_, ?_, rfl⟩
  · show (if b.parts.isEmpty then none else
      some (⟨b.parts.map (·.2)⟩ : PartsSection)).isSome ↔ b.parts ≠ []
    cases b.parts <;> simp
  · show (if b.merges.isEmpty then none else
      some (⟨b.merges.map (·.2)⟩ : MergesSection)).isSome ↔ b.merges ≠ []
    cases b.merges <;> simp
  · show (if b.mutations.isEmpty then none else
      some (⟨b.mutations.map (·.2)⟩ : MutationsSection)).isSome ↔ b.mutations ≠ []
    cases b.mutations <;> simp
  · show (if b.disk.isEmpty then none else
      some (⟨b.disk⟩ : DiskSection)).isSome ↔ b.disk ≠ []
    cases b.disk <;> simp
  · show (if b.queries.isEmpty then none else
      some (⟨b.queries⟩ : QueryLogSection)).isSome ↔ b.queries ≠ []
    cases b.queries <;> simp

/-! ## C10: frame and merge behaviour of the with_* methods -/

/-- C10: every `with_*` method touches only its own store and the
evidence ledger (appending exactly one entry) and leaves targets,
findings, actions, the DAG option and the other stores unchanged;
`with_disk`/`with_queries` replace the stored list wholesale, while the
three keyed methods merge by the `db.table` key with the last writer
winning (a lookup after the call returns the last supplied metric with
that key, or falls back to the previous binding). -/
theorem with_methods_frame :
    (∀ (b : ReportBuilder) (ms : List PartsMetrics) (sql now : String),
      (b.with_parts ms sql now).targets = b.targets ∧
      (b.with_parts ms sql now).merges = b.merges ∧
      (b.with_parts ms sql now).mutations = b.mutations ∧
      (b.with_parts ms sql now).disk = b.disk ∧
      (b.with_parts ms sql now).queries = b.queries ∧
      (b.with_parts ms sql now).mv_dag = b.mv_dag ∧
      (b.with_parts ms sql now).findings = b.findings ∧
      (b.with_parts ms sql now).actions = b.actions ∧
      (b.with_parts ms sql now).evidence.evidence = b.evidence.evidence ++
        [⟨"ev-" ++ pad3 (b.evidence.evidence.length + 1), "system.parts",
          rustTrim sql, now⟩] ∧
      (∀ k, lookupA (b.with_parts ms sql now).parts k =
        orElseO (ms.reverse.find? (fun m => decide (tableKey m.database m.table = k)))
          (lookupA b.parts k))) ∧
    (∀ (b : ReportBuilder) (ms : List MergeMetrics) (sql now : String),
      (b.with_merges ms sql now).targets = b.targets ∧
      (b.with_merges ms sql now).parts = b.parts ∧
      (b.with_merges ms sql now).mutations = b.mutations ∧
      (b.with_merges ms sql now).disk = b.disk ∧
      (b.with_merges ms sql now).queries = b.queries ∧
      (b.with_merges ms sql now).mv_dag = b.mv_dag ∧
      (b.with_merges ms sql now).findings = b.findings ∧
      (b.with_merges ms sql now).actions = b.actions ∧
      (b.with_merges ms sql now).evidence.evidence = b.evidence.evidence ++
        [⟨"ev-" ++ pad3 (b.evidence.evidence.length + 1), "system.merges",
          rustTrim sql, now⟩] ∧
      (∀ k, lookupA (b.with_merges ms sql now).merges k =
        orElseO (ms.reverse.find? (fun m => decide (tableKey m.database m.table = k)))
          (lookupA b.merges k))) ∧
    (∀ (b : ReportBuilder) (ms : List MutationMetrics) (sql now : String),
      (b.with_mutations ms sql now).targets = b.targets ∧
      (b.with_mutations ms sql now).parts = b.parts ∧
      (b.with_mutations ms sql now).merges = b.merges ∧
      (b.with_mutations ms sql now).disk = b.disk ∧
      (b.with_mutations ms sql now).queries = b.queries ∧
      (b.with_mutations ms sql now).mv_dag = b.mv_dag ∧
      (b.with_mutations ms sql now).findings = b.findings ∧
      (b.with_mutations ms sql now).actions = b.actions ∧
      (b.with_mutations ms sql now).evidence.evidence = b.evidence.evidence ++
        [⟨"ev-" ++ pad3 (b.evidence.evidence.length + 1), "system.mutations",
          rustTrim sql, now⟩] ∧
      (∀ k, lookupA (b.with_mutations ms sql now).mutations k =
        orElseO (ms.reverse.find? (fun m => decide (tableKey m.database m.table = k)))
          (lookupA b.mutations k))) ∧
    (∀ (b : ReportBuilder) (ms : List DiskMetrics) (sql now : String),
      (b.with_disk ms sql now).targets = b.targets ∧
      (b.with_disk ms sql now).parts = b.parts ∧
      (b.with_disk ms sql now).merges = b.merges ∧
      (b.with_disk ms sql now).mutations = b.mutations ∧
      (b.with_disk ms sql now).queries = b.queries ∧
      (b.with_disk ms sql now).mv_dag = b.mv_dag ∧
      (b.with_disk ms sql now).findings = b.findings ∧
      (b.with_disk ms sql now).actions = b.actions ∧
      (b.with_disk ms sql now).evidence.evidence = b.evidence.evidence ++
        [⟨"ev-" ++ pad3 (b.evidence.evidence.length + 1), "system.disks",
          rustTrim sql, now⟩] ∧
      (b.with_disk ms sql now).disk = ms) ∧
    (∀ (b : ReportBuilder) (ms : List QueryMetrics) (sql now : String),
      (b.with_queries ms sql now).targets = b.targets ∧
      (b.with_queries ms sql now).parts = b.parts ∧
      (b.with_queries ms sql now).merges = b.merges ∧
      (b.with_queries ms sql now).mutations = b.mutations ∧
      (b.with_queries ms sql now).disk = b.disk ∧
      (b.with_queries ms sql now).mv_dag = b.mv_dag ∧
      (b.with_queries ms sql now).findings = b.findings ∧
      (b.with_queries ms sql now).actions = b.actions ∧
      (b.with_queries ms sql now).evidence.evidence = b.evidence.evidence ++
        [⟨"ev-" ++ pad3 (b.evidence.evidence.length + 1), "system.query_log",
          rustTrim sql, now⟩] ∧
      (b.with_queries ms sql now).queries = ms) ∧
    (∀ (b : ReportBuilder) (dag : MvDagSection) (sql now : String),
      (b.with_mv_dag dag sql now).targets = b.targets ∧
      (b.with_mv_dag dag sql now).parts = b.parts ∧
      (b.with_mv_dag dag sql now).merges = b.merges ∧
      (b.with_mv_dag dag sql now).mutations = b.mutations ∧
      (b.with_mv_dag dag sql now).disk = b.disk ∧
      (b.with_mv_dag dag sql now).queries = b.queries ∧
      (b.with_mv_dag dag sql now).findings = b.findings ∧
      (b.with_mv_dag dag sql now).actions = b.actions ∧
      (b.with_mv_dag dag sql now).evidence.evidence = b.evidence.evidence ++
        [⟨"ev-" ++ pad3 (b.evidence.evidence.length + 1), "system.tables",
          rustTrim sql, now⟩] ∧
      (b.with_mv_dag dag sql now).mv_dag = some dag) := by
  refine ⟨?_, ?_, ?_, ?_, ?_, ?_⟩ <;> intro b ms sql now
  · refine ⟨rfl, rfl, rfl, rfl, rfl, rfl, rfl, rfl, rfl, ?_⟩
    intro k
    exact lookupA_foldl_insertA _ ms b.parts k
  · refine ⟨rfl, rfl, rfl, rfl, rfl, rfl, rfl, rfl, rfl, ?_⟩
    intro k
    exact lookupA_foldl_insertA _ ms b.merges k
  · refine ⟨rfl, rfl, rfl, rfl, rfl, rfl, rfl, rfl, rfl, ?_⟩
    intro k
    exact lookupA_foldl_insertA _ ms b.mutations k
  · exact ⟨rfl, rfl, rfl, rfl, rfl, rfl, rfl, rfl, rfl, rfl⟩
  · exact ⟨rfl, rfl, rfl, rfl, rfl, rfl, rfl, rfl, rfl, rfl⟩
  · exact ⟨rfl, rfl, rfl, rfl, rfl, rfl, rfl, rfl, rfl, rfl⟩

/-! ## C2: parts explosion bands -/

theorem partsResult_crit (j : Nat) (k : String) (m : PartsMetrics)
    (h : 1000 < m.active_parts) :
    partsResult j k m = some
      { finding :=
          { id := "f-parts-" ++ natDec j, rule_id := "parts_explosion",
            severity := Severity.critical, target := k,
            message := "Table has " ++ natDec m.active_parts ++
              " active parts, exceeding critical threshold of 1000",
            evidence_refs := [], confidence := 1 },
        actions :=
          [{ id := "a-parts-" ++ natDec j, finding_ref := "f-parts-" ++ natDec j,
             action_type := ActionType.recommendation, priority := Priority.high,
             description := "Run OPTIMIZE TABLE to reduce parts count",
             sql := some ("OPTIMIZE TABLE " ++ k ++ " FINAL") }] } := by
  unfold partsResult
  rw [if_pos h]

theorem partsResult_warn (j : Nat) (k : String) (m : PartsMetrics)
    (h1 : 300 < m.active_parts) (h2 : m.active_parts ≤ 1000) :
    partsResult j k m = some
      { finding :=
          { id := "f-parts-" ++ natDec j, rule_id := "parts_explosion",
            severity := Severity.warning, target := k,
            message := "Table has " ++ natDec m.active_parts ++
              " active parts, exceeding warning threshold of 300",
            evidence_refs := [], confidence := 1 },
        actions :=
          [{ id := "a-parts-" ++ natDec j, finding_ref := "f-parts-" ++ natDec j,
             action_type := ActionType.recommendation, priority := Priority.medium,
             description := "Consider running OPTIMIZE TABLE to reduce parts",
             sql := some ("OPTIMIZE TABLE " ++ k ++ " FINAL") }] } := by
  unfold partsResult
  rw [if_neg (by omega), if_pos h1]

theorem partsResult_lo (j : Nat) (k : String) (m : PartsMetrics)
    (h : m.active_parts ≤ 300) : partsResult j k m = none := by
  unfold partsResult
  rw [if_neg (by omega), if_neg (by omega)]

theorem partsResult_target {j : Nat} {k : String} {m : PartsMetrics}
    {r : RuleResult} (h : partsResult j k m = some r) : r.finding.target = k := by
  by_cases h1 : 1000 < m.active_parts
  · rw [partsResult_crit j k m h1] at h
    cases h
    rfl
  · by_cases h2 : 300 < m.active_parts
    · rw [partsResult_warn j k m h2 (by omega)] at h
      cases h
      rfl
    · rw [partsResult_lo j k m (by omega)] at h
      cases h

theorem partsEvalGo_cons (n : Nat) (e : String × PartsMetrics)
    (es : List (String × PartsMetrics)) :
    partsEvalGo n (e :: es) =
      match partsResult (n + 1) e.1 e.2 with
      | some r => r :: partsEvalGo (n + 1) es
      | none => partsEvalGo n es := rfl

theorem partsEvalGo_filter_none (n : Nat) (l : List (String × PartsMetrics))
    (k : String) (hk : ∀ p ∈ l, ¬ p.1 = k) :
    (partsEvalGo n l).filter (fun r => decide (r.finding.target = k)) = [] := by
  induction l generalizing n with
  | nil => rfl
  | cons e es ih =>
    rw [partsEvalGo_cons]
    cases hres : partsResult (n + 1) e.1 e.2 with
    | some r =>
      have ht : r.finding.target = e.1 := partsResult_target hres
      have hne : ¬ r.finding.target = k := by
        rw [ht]
        exact hk e (List.mem_cons_self e es)
      rw [List.filter_cons]
      simp only [hne, decide_eq_true_eq, if_neg]
      exact ih (n + 1) (fun p hp => hk p (List.mem_cons_of_mem e hp))
    | none => exact ih n (fun p hp => hk p (List.mem_cons_of_mem e hp))

theorem partsEvalGo_filter_eq (n : Nat) (l : List (String × PartsMetrics))
    (k : String) (m : PartsMetrics) (hmem : (k, m) ∈ l)
    (hnd : (l.map Prod.fst).Nodup) :
    ∃ j, (partsEvalGo n l).filter (fun r => decide (r.finding.target = k)) =
      (partsResult j k m).toList := by
  induction l generalizing n with
  | nil => exact absurd hmem (by simp)
  | cons e es ih =>
    rw [List.map_cons, List.nodup_cons] at hnd
    rcases List.mem_cons.mp hmem with heq | htail
    · have hek : e.1 = k := by rw [← heq]
      have hem : e.2 = m := by rw [← heq]
      subst hek
      subst hem
      have hrest : ∀ p ∈ es, ¬ p.1 = e.1 := by
        intro p hp hpk
        exact hnd.1 (hpk ▸ List.mem_map_of_mem Prod.fst hp)
      refine ⟨n + 1, ?_⟩
      rw [partsEvalGo_cons]
      cases hres : partsResult (n + 1) e.1 e.2 with
      | some r =>
        have ht : r.finding.target = e.1 := partsResult_target hres
        rw [List.filter_cons]
        have hcond : (decide (r.finding.target = e.1)) = true := by
          rw [ht]
          exact decide_eq_true rfl
        rw [hcond]
        simp only [if_pos]
        rw [partsEvalGo_filter_none (n + 1) es e.1 hrest]
        rfl
      | none =>
        rw [partsEvalGo_filter_none n es e.1 hrest]
        rfl
    · have hek : ¬ e.1 = k := by
        intro hkk
        have : k ∈ es.map Prod.fst := by
          exact (List.mem_map).mpr ⟨(k, m), htail, rfl⟩
        rw [hkk] at hnd
        exact hnd.1 this
      rw [partsEvalGo_cons]
      cases hres : partsResult (n + 1) e.1 e.2 with
      | some r =>
        have ht : r.finding.target = e.1 := partsResult_target hres
        have hne : ¬ r.finding.target = k := by rw [ht]; exact hek
        rw [List.filter_cons]
        simp only [hne, decide_eq_true_eq, if_neg]
        exact ih (n + 1) htail hnd.2
      | none => exact ih n htail hnd.2

/-- C2: for an audit context with uniquely keyed parts entries, the parts
explosion rule emits exactly one finding targeting a table iff its
active_parts exceed 300 (none at or below the threshold), the finding is
critical with a single priority-high action above 1000 active parts and a
warning with a single priority-medium action in the (300, 1000] band, and
the emitted action's SQL is OPTIMIZE TABLE db.table FINAL. -/
theorem parts_rule_bands (ctx : AuditContext) (k : String) (m : PartsMetrics)
    (hmem : (k, m) ∈ ctx.parts) (hnd : (ctx.parts.map Prod.fst).Nodup) :
    (((PartsExplosionRule.evaluate ctx).filter
        (fun r => decide (r.finding.target = k))).length = 1 ↔
      300 < m.active_parts) ∧
    (m.active_parts ≤ 300 →
      (PartsExplosionRule.evaluate ctx).filter
        (fun r => decide (r.finding.target = k)) = []) ∧
    (∀ r ∈ (PartsExplosionRule.evaluate ctx).filter
        (fun r => decide (r.finding.target = k)),
      r.finding.rule_id = "parts_explosion" ∧
      (1000 < m.active_parts →
        r.finding.severity = Severity.critical ∧
        ∃ a, r.actions = [a] ∧ a.priority = Priority.high ∧
          a.sql = some ("OPTIMIZE TABLE " ++ k ++ " FINAL")) ∧
      (m.active_parts ≤ 1000 →
        r.finding.severity = Severity.warning ∧
        ∃ a, r.actions = [a] ∧ a.priority = Priority.medium ∧
          a.sql = some ("OPTIMIZE TABLE " ++ k ++ " FINAL"))) := by
  obtain ⟨j, hj⟩ := partsEvalGo_filter_eq 0 ctx.parts k m hmem hnd
  refine ⟨?_, ?_, ?_⟩
  · rw [show PartsExplosionRule.evaluate ctx = partsEvalGo 0 ctx.parts from rfl, hj]
    by_cases h1 : 1000 < m.active_parts
    · rw [partsResult_crit j k m h1]
      simp only [Option.toList]
      simp only [List.length_cons, List.length_nil]
      exact iff_of_true trivial (by omega)
    · by_cases h2 : 300 < m.active_parts
      · rw [partsResult_warn j k m h2 (by omega)]
        simp only [Option.toList]
        simp only [List.length_cons, List.length_nil]
        exact iff_of_true trivial (by omega)
      · rw [partsResult_lo j k m (by omega)]
        simp only [Option.toList]
        simp only [List.length_nil]
        omega
  · intro hlo
    rw [show PartsExplosionRule.evaluate ctx = partsEvalGo 0 ctx.parts from rfl, hj,
      partsResult_lo j k m hlo]
    rfl
  · intro r hr
    rw [show PartsExplosionRule.evaluate ctx = partsEvalGo 0 ctx.parts from rfl, hj] at hr
    by_cases h1 : 1000 < m.active_parts
    · rw [partsResult_crit j k m h1] at hr
      rcases List.mem_singleton.mp hr with rfl
      refine ⟨rfl, fun _ => ⟨rfl, ⟨_, rfl, rfl, rfl⟩⟩, fun h => absurd h1 (by omega)⟩
    · by_cases h2 : 300 < m.active_parts
      · rw [partsResult_warn j k m h2 (by omega)] at hr
        rcases List.mem_singleton.mp hr with rfl
        exact ⟨rfl, fun h => absurd h h1, fun _ => ⟨rfl, ⟨_, rfl, rfl, rfl⟩⟩⟩
      · rw [partsResult_lo j k m (by omega)] at hr
        exact absurd hr (by simp)

def pmW : PartsMetrics := ⟨"testdb", "events", 0, 500, 0, 0, none, none⟩

def ctxW : AuditContext := AuditContext.new.add_parts pmW

theorem parts_rule_bands_witness :
    (("testdb.events", pmW) ∈ ctxW.parts ∧ (ctxW.parts.map Prod.fst).Nodup) ∧
    ((((PartsExplosionRule.evaluate ctxW).filter
        (fun r => decide (r.finding.target = "testdb.events"))).length = 1 ↔
      300 < pmW.active_parts) ∧
    (pmW.active_parts ≤ 300 →
      (PartsExplosionRule.evaluate ctxW).filter
        (fun r => decide (r.finding.target = "testdb.events")) = []) ∧
    (∀ r ∈ (PartsExplosionRule.evaluate ctxW).filter
        (fun r => decide (r.finding.target = "testdb.events")),
      r.finding.rule_id = "parts_explosion" ∧
      (1000 < pmW.active_parts →
        r.finding.severity = Severity.critical ∧
        ∃ a, r.actions = [a] ∧ a.priority = Priority.high ∧
          a.sql = some ("OPTIMIZE TABLE " ++ "testdb.events" ++ " FINAL")) ∧
      (pmW.active_parts ≤ 1000 →
        r.finding.severity = Severity.warning ∧
        ∃ a, r.actions = [a] ∧ a.priority = Priority.medium ∧
          a.sql = some ("OPTIMIZE TABLE " ++ "testdb.events" ++ " FINAL")))) :=
  ⟨⟨by decide, by decide⟩,
    parts_rule_bands ctxW "testdb.events" pmW (by decide) (by decide)⟩

/-! ## C7: query rule totality fails on multi-byte fingerprints

`truncate_fingerprint` slices the fingerprint at byte index 77
(`&fp[..77]`) whenever its byte length exceeds 80.  When byte 77 falls
inside a multi-byte UTF-8 character the slice panics, so
`QueryAmplificationRule::evaluate` is not total.  The witness
fingerprint is 76 ASCII bytes, one three-byte character, then two ASCII
bytes: 81 bytes long, with no character boundary at byte 77. -/

def badFingerprint : String := String.mk (List.replicate 76 'a') ++ "€" ++ "aa"

def badQueryMetrics : QueryMetrics :=
  { query_fingerprint := badFingerprint, execution_count := 1,
    avg_duration_ms := 0, total_read_rows := 0, total_read_bytes := 0,
    total_result_rows := 0, read_amplification := 500, avg_memory_bytes := 0,
    sample_query := none }

def badQueryCtx : AuditContext := AuditContext.new.set_queries [badQueryMetrics]

/-- C7 (refuting totality): on a context whose only query has a
fingerprint of 81 UTF-8 bytes with a multi-byte character straddling
byte 77 and read amplification 500, the byte slice in
`truncate_fingerprint` is off a character boundary (a Rust panic,
modelled `none`), and the panic propagates through
`QueryAmplificationRule::evaluate`. -/
theorem query_rule_panics_on_multibyte :
    byteLen badFingerprint = 81 ∧
    truncate_fingerprint badFingerprint = none ∧
    QueryAmplificationRule.evaluate badQueryCtx = none := by
  refine ⟨by decide, by decide, ?_⟩
  show queryEvalGo 0 [badQueryMetrics] = none
  rw [show queryEvalGo 0 [badQueryMetrics] =
    (if badQueryMetrics.read_amplification > 1000 then
      match truncate_fingerprint badQueryMetrics.query_fingerprint with
      | none => none
      | some tgt =>
        (queryEvalGo 1 []).map
          (fun rs => queryCritResult 1 tgt badQueryMetrics.read_amplification :: rs)
    else if badQueryMetrics.read_amplification > 100 then
      match truncate_fingerprint badQueryMetrics.query_fingerprint with
      | none => none
      | some tgt =>
        (queryEvalGo 1 []).map
          (fun rs => queryWarnResult 1 tgt badQueryMetrics.read_amplification :: rs)
    else queryEvalGo 0 []) from rfl]
  rw [if_neg (by norm_num [badQueryMetrics]), if_pos (by norm_num [badQueryMetrics])]
  rw [show truncate_fingerprint badQueryMetrics.query_fingerprint = none from by decide]

/-! ## C4: id machinery shared by the per-table / per-entry rules -/

/-- Common shape of the four total rules: walk the entries keeping the
1-based index `results.len() + 1`. -/
def ruleGo {α : Type} (step : Nat → α → Option RuleResult) :
    Nat → List α → List RuleResult
  | _, [] => []
  | n, x :: xs =>
    match step (n + 1) x with
    | some r => r :: ruleGo step (n + 1) xs
    | none => ruleGo step n xs

theorem ruleGo_cons {α : Type} (step : Nat → α → Option RuleResult) (n : Nat)
    (x : α) (xs : List α) :
    ruleGo step n (x :: xs) =
      match step (n + 1) x with
      | some r => r :: ruleGo step (n + 1) xs
      | none => ruleGo step n xs := rfl

theorem partsEvalGo_eq_ruleGo (n : Nat) (l : List (String × PartsMetrics)) :
    partsEvalGo n l = ruleGo (fun i e => partsResult i e.1 e.2) n l := by
  induction l generalizing n with
  | nil => rfl
  | cons e es ih =>
    rw [partsEvalGo_cons, ruleGo_cons]
    simp only [ih]

theorem mergeEvalGo_cons (n : Nat) (e : String × MergeMetrics)
    (es : List (String × MergeMetrics)) :
    mergeEvalGo n (e :: es) =
      match mergeResult (n + 1) e.1 e.2 with
      | some r => r :: mergeEvalGo (n + 1) es
      | none => mergeEvalGo n es := rfl

theorem mergeEvalGo_eq_ruleGo (n : Nat) (l : List (String × MergeMetrics)) :
    mergeEvalGo n l = ruleGo (fun i e => mergeResult i e.1 e.2) n l := by
  induction l generalizing n with
  | nil => rfl
  | cons e es ih =>
    rw [mergeEvalGo_cons, ruleGo_cons]
    simp only [ih]

theorem diskEvalGo_cons (n : Nat) (d : DiskMetrics) (ds : List DiskMetrics) :
    diskEvalGo n (d :: ds) =
      match diskResult (n + 1) d with
      | some r => r :: diskEvalGo (n + 1) ds
      | none => diskEvalGo n ds := rfl

theorem diskEvalGo_eq_ruleGo (n : Nat) (l : List DiskMetrics) :
    diskEvalGo n l = ruleGo diskResult n l := by
  induction l generalizing n with
  | nil => rfl
  | cons d ds ih =>
    rw [diskEvalGo_cons, ruleGo_cons]
    simp only [ih]

theorem mutationEvalGo_cons (n : Nat) (e : String × MutationMetrics)
    (es : List (String × MutationMetrics)) :
    mutationEvalGo n (e :: es) =
      match mutationResult (n + 1) e.1 e.2 with
      | some r => r :: mutationEvalGo (n + 1) es
      | none => mutationEvalGo n es := rfl

theorem mutationEvalGo_eq_ruleGo (n : Nat) (l : List (String × MutationMetrics)) :
    mutationEvalGo n l = ruleGo (fun i e => mutationResult i e.1 e.2) n l := by
  induction l generalizing n with
  | nil => rfl
  | cons e es ih =>
    rw [mutationEvalGo_cons, ruleGo_cons]
    simp only [ih]

/-- A step produces findings whose id is the prefixed 1-based index and
actions that reference exactly that finding id. -/
def StepSpec {α : Type} (step : Nat → α → Option RuleResult) (pfx : String) : Prop :=
  ∀ i x r, step i x = some r →
    r.finding.id = pfx ++ natDec i ∧
    ∀ a ∈ r.actions, a.finding_ref = pfx ++ natDec i

theorem partsResult_stepSpec :
    StepSpec (fun i (e : String × PartsMetrics) => partsResult i e.1 e.2)
      "f-parts-" := by
  intro i x r h
  replace h : partsResult i x.1 x.2 = some r := h
  by_cases h1 : 1000 < x.2.active_parts
  · rw [partsResult_crit i x.1 x.2 h1] at h
    cases h
    exact ⟨rfl, by
      intro a ha
      rcases List.mem_singleton.mp ha with rfl
      rfl⟩
  · by_cases h2 : 300 < x.2.active_parts
    · rw [partsResult_warn i x.1 x.2 h2 (by omega)] at h
      cases h
      exact ⟨rfl, by
        intro a ha
        rcases List.mem_singleton.mp ha with rfl
        rfl⟩
    · rw [partsResult_lo i x.1 x.2 (by omega)] at h
      cases h

theorem mergeResult_stepSpec :
    StepSpec (fun i (e : String × MergeMetrics) => mergeResult i e.1 e.2)
      "f-merge-" := by
  intro i x r h
  replace h : mergeResult i x.1 x.2 = some r := h
  unfold mergeResult at h
  simp only [] at h
  split_ifs at h <;> cases h <;>
    exact ⟨rfl, by
      intro a ha
      rcases List.mem_singleton.mp ha with rfl
      rfl⟩

theorem diskResult_stepSpec : StepSpec diskResult "f-disk-" := by
  intro i x r h
  unfold diskResult at h
  simp only [] at h
  split_ifs at h <;> cases h <;>
    exact ⟨rfl, by
      intro a ha
      rcases List.mem_singleton.mp ha with rfl
      rfl⟩

theorem mutationResult_stepSpec :
    StepSpec (fun i (e : String × MutationMetrics) => mutationResult i e.1 e.2)
      "f-mutation-" := by
  intro i x r h
  replace h : mutationResult i x.1 x.2 = some r := h
  unfold mutationResult at h
  split at h
  · split at h
    · split at h
      · cases h
        exact ⟨rfl, by
          intro a ha
          rcases List.mem_singleton.mp ha with rfl
          rfl⟩
      · cases h
    · cases h
  · cases h

theorem ruleGo_ids {α : Type} (step : Nat → α → Option RuleResult) (pfx : String)
    (hs : StepSpec step pfx) (n : Nat) (l : List α) :
    (ruleGo step n l).map (fun r => r.finding.id) =
      (List.range' (n + 1) (ruleGo step n l).length).map
        (fun i => pfx ++ natDec i) := by
  induction l generalizing n with
  | nil => rfl
  | cons x xs ih =>
    rw [ruleGo_cons]
    cases hstep : step (n + 1) x with
    | some r =>
      rw [List.map_cons, (hs (n + 1) x r hstep).1, ih (n + 1), List.length_cons,
        List.range'_succ, List.map_cons]
    | none => exact ih n

theorem ruleGo_refs {α : Type} (step : Nat → α → Option RuleResult) (pfx : String)
    (hs : StepSpec step pfx) (n : Nat) (l : List α) :
    ∀ r ∈ ruleGo step n l, ∀ a ∈ r.actions, a.finding_ref = r.finding.id := by
  induction l generalizing n with
  | nil => intro r hr; cases hr
  | cons x xs ih =>
    intro r hr a ha
    rw [ruleGo_cons] at hr
    cases hstep : step (n + 1) x with
    | some r0 =>
      rw [hstep] at hr
      rcases List.mem_cons.mp hr with rfl | htail
      · rw [(hs (n + 1) x r hstep).2 a ha, (hs (n + 1) x r hstep).1]
      · exact ih (n + 1) r htail a ha
    | none =>
      rw [hstep] at hr
      exact ih n r hr a ha

theorem queryEvalGo_cons (n : Nat) (q : QueryMetrics) (qs : List QueryMetrics) :
    queryEvalGo n (q :: qs) =
      if q.read_amplification > 1000 then
        match truncate_fingerprint q.query_fingerprint with
        | none => none
        | some tgt =>
          (queryEvalGo (n + 1) qs).map
            (fun rs => queryCritResult (n + 1) tgt q.read_amplification :: rs)
      else if q.read_amplification > 100 then
        match truncate_fingerprint q.query_fingerprint with
        | none => none
        | some tgt =>
          (queryEvalGo (n + 1) qs).map
            (fun rs => queryWarnResult (n + 1) tgt q.read_amplification :: rs)
      else queryEvalGo n qs := rfl

theorem queryEvalGo_spec (qs : List QueryMetrics) (n : Nat) (rs : List RuleResult)
    (h : queryEvalGo n qs = some rs) :
    rs.map (fun r => r.finding.id) =
      (List.range' (n + 1) rs.length).map (fun i => "f-query-" ++ natDec i) ∧
    ∀ r ∈ rs, ∀ a ∈ r.actions, a.finding_ref = r.finding.id := by
  induction qs generalizing n rs with
  | nil =>
    cases h
    exact ⟨rfl, by intro r hr; exact absurd hr (by simp)⟩
  | cons q qs ih =>
    rw [queryEvalGo_cons] at h
    by_cases h1 : q.read_amplification > 1000
    · rw [if_pos h1] at h
      cases ht : truncate_fingerprint q.query_fingerprint with
      | none => rw [ht] at h; cases h
      | some tgt =>
        rw [ht] at h
        rcases Option.map_eq_some'.mp h with ⟨rs0, hrs0, hcons⟩
        subst hcons
        obtain ⟨hids, hrefs⟩ := ih (n + 1) rs0 hrs0
        constructor
        · rw [List.map_cons, hids, List.length_cons, List.range'_succ, List.map_cons]
          rfl
        · intro r hr a ha
          rcases List.mem_cons.mp hr with rfl | htail
          · rcases List.mem_singleton.mp ha with rfl
            rfl
          · exact hrefs r htail a ha
    · rw [if_neg h1] at h
      by_cases h2 : q.read_amplification > 100
      · rw [if_pos h2] at h
        cases ht : truncate_fingerprint q.query_fingerprint with
        | none => rw [ht] at h; cases h
        | some tgt =>
          rw [ht] at h
          rcases Option.map_eq_some'.mp h with ⟨rs0, hrs0, hcons⟩
          subst hcons
          obtain ⟨hids, hrefs⟩ := ih (n + 1) rs0 hrs0
          constructor
          · rw [List.map_cons, hids, List.length_cons, List.range'_succ, List.map_cons]
            rfl
          · intro r hr a ha
            rcases List.mem_cons.mp hr with rfl | htail
            · rcases List.mem_singleton.mp ha with rfl
              rfl
            · exact hrefs r htail a ha
      · rw [if_neg h2] at h
        exact ih n rs h

theorem evalAllGo_cons (ctx : AuditContext) (r : RuleT) (rs : List RuleT) :
    evalAllGo ctx (r :: rs) =
      match r.evaluate ctx with
      | none => none
      | some a => (evalAllGo ctx rs).map (a ++ ·) := rfl

/-- Evaluation of the default registry in registration order; the whole
run aborts iff the query rule panics. -/
theorem evaluate_all_default (ctx : AuditContext) :
    RuleRegistry.with_default_rules.evaluate_all ctx =
      (queryEvalGo 0 ctx.queries).map (fun qrs =>
        PartsExplosionRule.evaluate ctx ++
          (MergeBacklogRule.evaluate ctx ++
            (DiskHeadroomRule.evaluate ctx ++
              (qrs ++ (StuckMutationRule.evaluate ctx ++ []))))) := by
  show evalAllGo ctx [partsRuleT, mergeRuleT, diskRuleT, queryRuleT, mutationRuleT] = _
  cases hq : queryEvalGo 0 ctx.queries with
  | none =>
    simp only [evalAllGo_cons, partsRuleT, mergeRuleT, diskRuleT, queryRuleT,
      mutationRuleT, QueryAmplificationRule.evaluate, hq]
    rfl
  | some qrs =>
    simp only [evalAllGo_cons, partsRuleT, mergeRuleT, diskRuleT, queryRuleT,
      mutationRuleT, QueryAmplificationRule.evaluate, hq]
    rfl

/-! ### Distinctness of finding identifiers -/

theorem string_data_inj {s1 s2 : String} (h : s1.data = s2.data) : s1 = s2 := by
  cases s1
  cases s2
  cases h
  rfl

theorem strAppend_left_inj (p : String) {s1 s2 : String} (h : p ++ s1 = p ++ s2) :
    s1 = s2 := by
  have hd : p.data ++ s1.data = p.data ++ s2.data := congrArg String.data h
  exact string_data_inj (List.append_cancel_left hd)

theorem idNat_inj (pfx : String) : Function.Injective (fun i => pfx ++ natDec i) :=
  fun _ _ h => natDec_injective (strAppend_left_inj pfx h)

theorem string_ne_of_data_get (i : Nat) {s1 s2 : String} {c1 c2 : Char}
    (h1 : s1.data[i]? = some c1) (h2 : s2.data[i]? = some c2) (hne : c1 ≠ c2) :
    s1 ≠ s2 := by
  intro h
  subst h
  rw [h1] at h2
  cases h2
  exact hne rfl

theorem pfxAppend_data_get (p s : String) (i : Nat) (c : Char)
    (h : p.data[i]? = some c) : (p ++ s).data[i]? = some c := by
  have hd : (p ++ s).data = p.data ++ s.data := rfl
  have hlt : i < p.data.length := by
    rcases List.getElem?_eq_some.mp h with ⟨hl, _⟩
    exact hl
  rw [hd, List.getElem?_append, if_pos hlt]
  exact h

theorem ids_ne (p1 p2 : String) (i : Nat) (c1 c2 : Char)
    (h1 : p1.data[i]? = some c1) (h2 : p2.data[i]? = some c2) (hne : c1 ≠ c2)
    (x y : Nat) : p1 ++ natDec x ≠ p2 ++ natDec y :=
  string_ne_of_data_get i (pfxAppend_data_get p1 (natDec x) i c1 h1)
    (pfxAppend_data_get p2 (natDec y) i c2 h2) hne

theorem nodup_pfx_ids (pfx : String) (s n : Nat) :
    (((List.range' s n).map (fun i => pfx ++ natDec i))).Nodup :=
  List.Nodup.map (idNat_inj pfx) (List.nodup_range' s n)

theorem disjoint_pfx_ids (p1 p2 : String) (i : Nat) (c1 c2 : Char)
    (h1 : p1.data[i]? = some c1) (h2 : p2.data[i]? = some c2) (hne : c1 ≠ c2)
    (s1 n1 s2 n2 : Nat) :
    List.Disjoint ((List.range' s1 n1).map (fun x => p1 ++ natDec x))
      ((List.range' s2 n2).map (fun x => p2 ++ natDec x)) := by
  intro a ha hb
  rcases List.mem_map.mp ha with ⟨x, _, rfl⟩
  rcases List.mem_map.mp hb with ⟨y, _, heq⟩
  exact ids_ne p1 p2 i c1 c2 h1 h2 hne x y heq.symm

/-- C4: in a report built after running the default five-rule registry on
a builder with no prior findings or actions, every action's finding_ref
is the id of exactly one finding of the same report. -/
theorem actions_have_unique_parent (b b2 : ReportBuilder) (rid ts : String)
    (hf : b.findings = []) (ha : b.actions = [])
    (hrun : b.run_rules RuleRegistry.with_default_rules = some b2) :
    ∀ a ∈ (b2.build rid ts).actions,
      ∃! f, f ∈ (b2.build rid ts).findings ∧ f.id = a.finding_ref := by
  unfold ReportBuilder.run_rules at hrun
  rw [evaluate_all_default] at hrun
  cases hq : queryEvalGo 0 b.build_context.queries with
  | none =>
    rw [hq] at hrun
    cases hrun
  | some qrs =>
    rw [hq] at hrun
    simp only [Option.map_some'] at hrun
    have hb2 := (Option.some.inj hrun).symm
    subst hb2
    set ctx := b.build_context with hctx
    set RS := PartsExplosionRule.evaluate ctx ++
      (MergeBacklogRule.evaluate ctx ++
        (DiskHeadroomRule.evaluate ctx ++
          (qrs ++ (StuckMutationRule.evaluate ctx ++ [])))) with hRS
    have hrefs : ∀ r ∈ RS, ∀ a ∈ r.actions, a.finding_ref = r.finding.id := by
      intro r hr
      rw [hRS] at hr
      rcases List.mem_append.mp hr with h1 | hr
      · rw [show PartsExplosionRule.evaluate ctx =
            ruleGo (fun i e => partsResult i e.1 e.2) 0 ctx.parts
          from partsEvalGo_eq_ruleGo 0 ctx.parts] at h1
        exact ruleGo_refs _ _ partsResult_stepSpec 0 ctx.parts r h1
      rcases List.mem_append.mp hr with h2 | hr
      · rw [show MergeBacklogRule.evaluate ctx =
            ruleGo (fun i e => mergeResult i e.1 e.2) 0 ctx.merges
          from mergeEvalGo_eq_ruleGo 0 ctx.merges] at h2
        exact ruleGo_refs _ _ mergeResult_stepSpec 0 ctx.merges r h2
      rcases List.mem_append.mp hr with h3 | hr
      · rw [show DiskHeadroomRule.evaluate ctx = ruleGo diskResult 0 ctx.disk
          from diskEvalGo_eq_ruleGo 0 ctx.disk] at h3
        exact ruleGo_refs _ _ diskResult_stepSpec 0 ctx.disk r h3
      rcases List.mem_append.mp hr with h4 | hr
      · exact (queryEvalGo_spec ctx.queries 0 qrs hq).2 r h4
      rcases List.mem_append.mp hr with h5 | hr
      · rw [show StuckMutationRule.evaluate ctx =
            ruleGo (fun i e => mutationResult i e.1 e.2) 0 ctx.mutations
          from mutationEvalGo_eq_ruleGo 0 ctx.mutations] at h5
        exact ruleGo_refs _ _ mutationResult_stepSpec 0 ctx.mutations r h5
      · cases hr
    have hnd : (RS.map (fun r => r.finding.id)).Nodup := by
      rw [hRS]
      simp only [List.map_append, List.map_nil, List.append_nil]
      have idsP := ruleGo_ids _ _ partsResult_stepSpec 0 ctx.parts
      have idsM := ruleGo_ids _ _ mergeResult_stepSpec 0 ctx.merges
      have idsD := ruleGo_ids _ _ diskResult_stepSpec 0 ctx.disk
      have idsU := ruleGo_ids _ _ mutationResult_stepSpec 0 ctx.mutations
      have idsQ := (queryEvalGo_spec ctx.queries 0 qrs hq).1
      rw [show PartsExplosionRule.evaluate ctx =
          ruleGo (fun i e => partsResult i e.1 e.2) 0 ctx.parts
        from partsEvalGo_eq_ruleGo 0 ctx.parts]
      rw [show MergeBacklogRule.evaluate ctx =
          ruleGo (fun i e => mergeResult i e.1 e.2) 0 ctx.merges
        from mergeEvalGo_eq_ruleGo 0 ctx.merges]
      rw [show DiskHeadroomRule.evaluate ctx = ruleGo diskResult 0 ctx.disk
        from diskEvalGo_eq_ruleGo 0 ctx.disk]
      rw [show StuckMutationRule.evaluate ctx =
          ruleGo (fun i e => mutationResult i e.1 e.2) 0 ctx.mutations
        from mutationEvalGo_eq_ruleGo 0 ctx.mutations]
      rw [idsP, idsM, idsD, idsU, idsQ]
      have c12 : ("f-parts-" : String).data[2]? = some 'p' := by decide
      have c22 : ("f-merge-" : String).data[2]? = some 'm' := by decide
      have c32 : ("f-disk-" : String).data[2]? = some 'd' := by decide
      have c42 : ("f-query-" : String).data[2]? = some 'q' := by decide
      have c52 : ("f-mutation-" : String).data[2]? = some 'm' := by decide
      have c23 : ("f-merge-" : String).data[3]? = some 'e' := by decide
      have c53 : ("f-mutation-" : String).data[3]? = some 'u' := by decide
      refine List.Nodup.append (nodup_pfx_ids _ _ _) ?_ ?_
      · refine List.Nodup.append (nodup_pfx_ids _ _ _) ?_ ?_
        · refine List.Nodup.append (nodup_pfx_ids _ _ _) ?_ ?_
          · refine List.Nodup.append (nodup_pfx_ids _ _ _)
              (nodup_pfx_ids _ _ _) ?_
            · exact disjoint_pfx_ids _ _ 2 'q' 'm' c42 c52 (by decide) _ _ _ _
          · rw [List.disjoint_append_right]
            exact ⟨disjoint_pfx_ids _ _ 2 'd' 'q' c32 c42 (by decide) _ _ _ _,
              disjoint_pfx_ids _ _ 2 'd' 'm' c32 c52 (by decide) _ _ _ _⟩
        · rw [List.disjoint_append_right, List.disjoint_append_right]
          exact ⟨disjoint_pfx_ids _ _ 2 'm' 'd' c22 c32 (by decide) _ _ _ _,
            disjoint_pfx_ids _ _ 2 'm' 'q' c22 c42 (by decide) _ _ _ _,
            disjoint_pfx_ids _ _ 3 'e' 'u' c23 c53 (by decide) _ _ _ _⟩
      · rw [List.disjoint_append_right, List.disjoint_append_right,
          List.disjoint_append_right]
        exact ⟨disjoint_pfx_ids _ _ 2 'p' 'm' c12 c22 (by decide) _ _ _ _,
          disjoint_pfx_ids _ _ 2 'p' 'd' c12 c32 (by decide) _ _ _ _,
          disjoint_pfx_ids _ _ 2 'p' 'q' c12 c42 (by decide) _ _ _ _,
          disjoint_pfx_ids _ _ 2 'p' 'm' c12 c52 (by decide) _ _ _ _⟩
    intro a hact
    replace hact : a ∈ b.actions ++ (RS.map (fun r => r.actions)).flatten := hact
    rw [ha, List.nil_append] at hact
    obtain ⟨acts, hactsmem, haIn⟩ := List.mem_flatten.mp hact
    obtain ⟨r, hr, rfl⟩ := List.mem_map.mp hactsmem
    show ∃! f, f ∈ b.findings ++ RS.map (fun r => r.finding) ∧
      f.id = a.finding_ref
    rw [hf, List.nil_append]
    refine ⟨r.finding, ⟨List.mem_map_of_mem _ hr, (hrefs r hr a haIn).symm⟩, ?_⟩
    rintro f' ⟨hf'mem, hf'id⟩
    obtain ⟨r', hr', rfl⟩ := List.mem_map.mp hf'mem
    have hideq : r'.finding.id = r.finding.id := by
      rw [hf'id, hrefs r hr a haIn]
    have hmapnd : (RS.map (fun r => r.finding.id)).Nodup := hnd
    have : r' = r := by
      have hcomp : ((RS.map (fun r => r.finding)).map (fun f => f.id)).Nodup := by
        rw [List.map_map]
        exact hmapnd
      exact List.inj_on_of_nodup_map hmapnd hr' hr hideq
    rw [this]

def bW : ReportBuilder :=
  (ReportBuilder.new ⟨"http://localhost:8123", "testdb", ["events"]⟩).with_parts
    [pmW] "sql" "t0"

def bW2 : ReportBuilder :=
  (bW.run_rules RuleRegistry.with_default_rules).getD
    (ReportBuilder.new ⟨"", "", []⟩)

def aW : Action :=
  ((bW2.build "id" "ts").actions.head?).getD
    ⟨"", "", ActionType.recommendation, Priority.low, "", none⟩

theorem actions_have_unique_parent_witness :
    (bW.findings = [] ∧ bW.actions = [] ∧
      bW.run_rules RuleRegistry.with_default_rules = some bW2 ∧
      aW ∈ (bW2.build "id" "ts").actions) ∧
    (∃! f, f ∈ (bW2.build "id" "ts").findings ∧ f.id = aW.finding_ref) :=
  ⟨⟨by decide, by decide, by decide, by decide⟩,
    actions_have_unique_parent bW bW2 "id" "ts" (by decide) (by decide)
      (by decide) aW (by decide)⟩

/-! ## Invariants of the MV DAG depth relaxation -/

theorem mem_insertA {α : Type} {l : List (String × α)} {k : String} {v : α}
    {p : String × α} (h : p ∈ insertA l k v) : p ∈ l ∨ p = (k, v) := by
  unfold insertA at h
  by_cases hc : containsA l k
  · rw [if_pos hc] at h
    rcases List.mem_map.mp h with ⟨q, hq, heq⟩
    by_cases hqk : q.1 = k
    · right
      rw [← heq, if_pos hqk]
    · left
      rw [← heq, if_neg hqk]
      exact hq
  · rw [if_neg hc] at h
    rcases List.mem_append.mp h with h | h
    · left
      exact h
    · right
      exact List.mem_singleton.mp h

theorem containsA_eq_false_iff {α : Type} {l : List (String × α)} {k : String} :
    containsA l k = false ↔ ∀ p ∈ l, ¬ p.1 = k := by
  unfold containsA
  rw [← Bool.not_eq_true, List.any_eq_true]
  constructor
  · intro h p hp hk
    exact h ⟨p, hp, by simp [hk]⟩
  · rintro h ⟨p, hp, hk⟩
    exact h p hp (by simpa using hk)

theorem insertA_keys_nodup {α : Type} (l : List (String × α)) (k : String) (v : α)
    (h : (l.map Prod.fst).Nodup) : ((insertA l k v).map Prod.fst).Nodup := by
  unfold insertA
  by_cases hc : containsA l k
  · rw [if_pos hc]
    have heq : (l.map (fun p => if p.1 = k then (k, v) else p)).map Prod.fst =
        l.map Prod.fst := by
      rw [List.map_map]
      apply List.map_congr_left
      intro p _
      by_cases hpk : p.1 = k
      · simp [hpk]
      · simp [hpk]
    rw [heq]
    exact h
  · rw [if_neg hc, List.map_append]
    have hknot : ∀ p ∈ l, ¬ p.1 = k :=
      containsA_eq_false_iff.mp (by simpa using hc)
    refine List.Nodup.append h (List.nodup_singleton k) ?_
    intro x hx hy
    rcases List.mem_singleton.mp (by simpa using hy) with rfl
    rcases List.mem_map.mp hx with ⟨p, hp, hpk⟩
    exact hknot p hp hpk

theorem lookupA_of_mem_nodup {α : Type} {l : List (String × α)}
    (hnd : (l.map Prod.fst).Nodup) {k : String} {v : α} (h : (k, v) ∈ l) :
    lookupA l k = some v := by
  induction l with
  | nil => cases h
  | cons p rest ih =>
    rw [List.map_cons, List.nodup_cons] at hnd
    rw [lookupA_cons]
    rcases List.mem_cons.mp h with rfl | htail
    · rw [if_pos rfl]
    · have hpk : ¬ p.1 = k := by
        intro hpk
        exact hnd.1 (hpk ▸ List.mem_map_of_mem Prod.fst htail)
      rw [if_neg hpk]
      exact ih hnd.2 htail

theorem mem_of_lookupA {α : Type} {l : List (String × α)} {k : String} {v : α}
    (h : lookupA l k = some v) : (k, v) ∈ l := by
  unfold lookupA at h
  cases hf : l.find? (fun p => p.1 = k) with
  | none => rw [hf] at h; cases h
  | some p =>
    rw [hf] at h
    have hk : p.1 = k := by simpa using List.find?_some hf
    have hp : p ∈ l := List.mem_of_find?_eq_some hf
    cases h
    have : p = (p.1, p.2) := rfl
    rw [← hk]
    exact hp

/-- Key invariant carried through the relaxation: all keys of the depth
map are in `tk` and are pairwise distinct. -/
def KeysInv (tk : List String) (d : List (String × Nat)) : Prop :=
  (∀ p ∈ d, p.1 ∈ tk) ∧ (d.map Prod.fst).Nodup

theorem keysInv_insertA {tk : List String} {d : List (String × Nat)}
    (hd : KeysInv tk d) {k : String} (hk : k ∈ tk) (v : Nat) :
    KeysInv tk (insertA d k v) := by
  refine ⟨?_, insertA_keys_nodup d k v hd.2⟩
  intro p hp
  rcases mem_insertA hp with hmem | rfl
  · exact hd.1 p hmem
  · exact hk

theorem relaxStep_keysInv (db : String) (tk : List String)
    (st : List (String × Nat) × Bool) (tv : String × List String)
    (hst : KeysInv tk st.1) (htv : tv.1 ∈ tk) :
    KeysInv tk (relaxStep db st tv).1 := by
  unfold relaxStep
  split
  · split
    · split
      · split
        · exact keysInv_insertA hst htv _
        · exact hst
      · exact keysInv_insertA hst htv _
    · exact hst
  · exact hst

theorem foldl_relaxStep_keysInv (db : String) (tk : List String)
    (l : List (String × List String)) :
    ∀ st : List (String × Nat) × Bool, KeysInv tk st.1 →
      (∀ q ∈ l, q.1 ∈ tk) → KeysInv tk (l.foldl (relaxStep db) st).1 := by
  induction l with
  | nil => intro st hst _; exact hst
  | cons tv rest ih =>
    intro st hst hl
    rw [List.foldl_cons]
    exact ih (relaxStep db st tv)
      (relaxStep_keysInv db tk st tv hst (hl tv (List.mem_cons_self tv rest)))
      (fun q hq => hl q (List.mem_cons_of_mem tv hq))

theorem relaxPass_keysInv (dOn : List (String × List String)) (db : String)
    (tk : List String) (d : List (String × Nat)) (hd : KeysInv tk d)
    (hdOn : ∀ q ∈ dOn, q.1 ∈ tk) : KeysInv tk (relaxPass dOn db d).1 :=
  foldl_relaxStep_keysInv db tk dOn (d, false) hd hdOn

theorem relaxLoop_keysInv (dOn : List (String × List String)) (db : String)
    (tk : List String) (hdOn : ∀ q ∈ dOn, q.1 ∈ tk) :
    ∀ (fuel : Nat) (d res : List (String × Nat)), KeysInv tk d →
      relaxLoop dOn db fuel d = some res → KeysInv tk res := by
  intro fuel
  induction fuel with
  | zero => intro d res _ h; cases h
  | succ f ih =>
    intro d res hd h
    unfold relaxLoop at h
    by_cases hch : (relaxPass dOn db d).2
    · rw [if_pos hch] at h
      exact ih (relaxPass dOn db d).1 res (relaxPass_keysInv dOn db tk d hd hdOn) h
    · rw [if_neg hch] at h
      cases h
      exact relaxPass_keysInv dOn db tk d hd hdOn

theorem rootInit_keysInv (tkeys : List String)
    (dOn : List (String × List String)) : KeysInv tkeys (rootInit tkeys dOn) := by
  unfold rootInit
  suffices h : ∀ (l : List String) (acc : List (String × Nat)),
      (∀ k ∈ l, k ∈ tkeys) → KeysInv tkeys acc →
      KeysInv tkeys (l.foldl
        (fun acc k => if containsA dOn k then acc else insertA acc k 0) acc) by
    exact h tkeys [] (fun k hk => hk) ⟨fun p hp => absurd hp (by simp), by simp⟩
  intro l
  induction l with
  | nil => intro acc _ hacc; exact hacc
  | cons k rest ih =>
    intro acc hl hacc
    rw [List.foldl_cons]
    refine ih _ (fun x hx => hl x (List.mem_cons_of_mem k hx)) ?_
    by_cases hc : containsA dOn k
    · rw [if_pos hc]
      exact hacc
    · rw [if_neg hc]
      exact keysInv_insertA hacc (hl k (List.mem_cons_self k rest)) 0

theorem mem_insertAppend_key {l : List (String × List String)} {k v : String}
    {p : String × List String} (h : p ∈ insertAppend l k v) :
    p.1 ∈ l.map Prod.fst ∨ p.1 = k := by
  unfold insertAppend at h
  by_cases hc : containsA l k
  · rw [if_pos hc] at h
    rcases List.mem_map.mp h with ⟨q, hq, heq⟩
    left
    by_cases hqk : q.1 = k
    · rw [← heq, if_pos hqk]
      show q.1 ∈ l.map Prod.fst
      exact List.mem_map_of_mem Prod.fst hq
    · rw [← heq, if_neg hqk]
      exact List.mem_map_of_mem Prod.fst hq
  · rw [if_neg hc] at h
    rcases List.mem_append.mp h with h | h
    · left
      exact List.mem_map_of_mem Prod.fst h
    · right
      rcases List.mem_singleton.mp h with rfl
      rfl

theorem buildDependsOn_keys (deps : List DependencyRow) :
    ∀ q ∈ buildDependsOn deps,
      q.1 ∈ deps.map (fun d => tableKey d.database d.name) := by
  unfold buildDependsOn
  suffices h : ∀ (l : List DependencyRow) (acc : List (String × List String)),
      ∀ q ∈ l.foldl (fun m d =>
        insertAppend m (tableKey d.database d.name)
          (tableKey d.dep_database d.dep_table)) acc,
      q.1 ∈ acc.map Prod.fst ∨ q.1 ∈ l.map (fun d => tableKey d.database d.name) by
    intro q hq
    rcases h deps [] q hq with hacc | hl
    · exact absurd hacc (by simp)
    · exact hl
  intro l
  induction l with
  | nil =>
    intro acc q hq
    left
    exact List.mem_map_of_mem Prod.fst hq
  | cons d rest ih =>
    intro acc q hq
    rw [List.foldl_cons] at hq
    rcases ih _ q hq with hacc | hrest
    · rcases List.mem_map.mp hacc with ⟨p, hp, heq⟩
      rcases mem_insertAppend_key hp with hpk | hpk
      · left
        rw [← heq]
        exact hpk
      · right
        rw [← heq, hpk, List.map_cons]
        exact List.mem_cons_self _ _
    · right
      rw [List.map_cons]
      exact List.mem_cons_of_mem _ hrest

theorem max?_getD_foldr (l : List Nat) : (l.max?).getD 0 = l.foldr max 0 := by
  induction l with
  | nil => rfl
  | cons x xs ih =>
    rw [List.max?_cons, List.foldr_cons, ← ih]
    cases hm : xs.max? with
    | none =>
      simp only [Option.getD_none, Option.getD_some]
      cases xs with
      | nil => simp
      | cons y ys => rw [List.max?_cons] at hm; cases hm
    | some m => simp [Nat.max_comm]

theorem le_foldr_max {x : Nat} {l : List Nat} (h : x ∈ l) : x ≤ l.foldr max 0 := by
  induction l with
  | nil => cases h
  | cons y ys ih =>
    rw [List.foldr_cons]
    rcases List.mem_cons.mp h with rfl | htail
    · exact Nat.le_max_left _ _
    · exact le_trans (ih htail) (Nat.le_max_right _ _)

theorem foldr_max_le {l : List Nat} {b : Nat} (h : ∀ x ∈ l, x ≤ b) :
    l.foldr max 0 ≤ b := by
  induction l with
  | nil => exact Nat.zero_le b
  | cons y ys ih =>
    rw [List.foldr_cons]
    exact Nat.max_le.mpr ⟨h y (List.mem_cons_self y ys),
      ih (fun x hx => h x (List.mem_cons_of_mem y hx))⟩

/-! ## C9: node typing, totals and max_depth of the DAG section -/

theorem countP_not_split {α : Type} (p : α → Bool) (l : List α) :
    l.countP p + l.countP (fun a => ! p a) = l.length := by
  induction l with
  | nil => rfl
  | cons x xs ih =>
    cases h : p x <;> simp [List.countP_cons, h] <;> omega

/-- C9 counterexample: a dependency row whose (database, name) pair names
no table row gives the internal depth table an entry for a non-node key;
`max_depth` is then 1 while every node has depth 0. -/
theorem build_dag_max_depth_counterexample :
    ((MvDagCollector.build_dag 10 "db" [⟨"db", "a", "MergeTree"⟩]
        [⟨"db", "x", "db", "a"⟩]).map
      (fun s => (s.max_depth, s.nodes.map (fun n => n.depth)))) =
      some (1, [0]) ∧
    ¬ ((1 : Nat) = (([0] : List Nat).max?).getD 0) := ⟨by decide, by decide⟩

/-- C9 (amended): in every section `build_dag` returns, a node is typed
materialized_view iff its engine contains the substring
MaterializedView, total_mvs counts the materialized_view nodes and
total_tables the table nodes; and whenever every dependency row's
(database, name) pair names some table row — which the collector's two
queries guarantee — max_depth equals the maximum node depth (0 for no
nodes).  Without that condition max_depth is the maximum of the internal
depth table, which can exceed every node depth. -/
theorem build_dag_section_stats (fuel : Nat) (db : String)
    (tables : List TableRow) (deps : List DependencyRow) (sec : MvDagSection)
    (hs : MvDagCollector.build_dag fuel db tables deps = some sec) :
    (∀ nd ∈ sec.nodes,
      nd.table_type = TableType.materialized_view ↔
        containsSub nd.engine "MaterializedView" = true) ∧
    sec.total_mvs = (sec.nodes.filter
      (fun n => decide (n.table_type = TableType.materialized_view))).length ∧
    sec.total_tables = (sec.nodes.filter
      (fun n => decide (n.table_type = TableType.table))).length ∧
    ((∀ d ∈ deps, ∃ t ∈ tables, t.database = d.database ∧ t.name = d.name) →
      sec.max_depth = ((sec.nodes.map (fun n => n.depth)).max?).getD 0) := by
  unfold MvDagCollector.build_dag at hs
  simp only [] at hs
  cases hd : MvDagCollector.calculate_depths fuel tables (buildDependsOn deps) db with
  | none =>
    rw [hd] at hs
    cases hs
  | some depths =>
    rw [hd] at hs
    cases hs
    refine ⟨?_, ?_, ?_, ?_⟩
    · intro nd hnd
      rcases List.mem_map.mp hnd with ⟨t, _, rfl⟩
      by_cases hc : containsSub t.engine "MaterializedView"
      · simp [hc]
      · simp only [if_neg hc]
        constructor
        · intro h
          cases h
        · intro h
          exact absurd h hc
    · show (tables.filter (fun t => containsSub t.engine "MaterializedView")).length = _
      rw [← List.countP_eq_length_filter, ← List.countP_eq_length_filter,
        List.countP_map]
      apply List.countP_congr
      intro t _
      by_cases hc : containsSub t.engine "MaterializedView"
      · simp [Function.comp, hc]
      · simp [Function.comp, hc]
    · show tables.length -
        (tables.filter (fun t => containsSub t.engine "MaterializedView")).length = _
      have hsplit := countP_not_split
        (fun t => containsSub t.engine "MaterializedView") tables
      have htab : ((tables.map (fun t =>
          ({ name := t.name, database := t.database,
             table_type := if containsSub t.engine "MaterializedView" then
               TableType.materialized_view else TableType.table,
             engine := t.engine,
             depth := (lookupA depths (tableKey t.database t.name)).getD 0 } :
              MvDagNode))).filter
            (fun n => decide (n.table_type = TableType.table))).length =
          tables.countP (fun t => ! containsSub t.engine "MaterializedView") := by
        rw [← List.countP_eq_length_filter, List.countP_map]
        apply List.countP_congr
        intro t _
        by_cases hc : containsSub t.engine "MaterializedView"
        · simp [Function.comp, hc]
        · simp [Function.comp, hc]
      rw [htab, ← List.countP_eq_length_filter]
      omega
    · intro hwf
      show ((depths.map (fun p => p.2)).max?).getD 0 = _
      have htkeys : ∀ q ∈ buildDependsOn deps,
          q.1 ∈ tables.map (fun t => tableKey t.database t.name) := by
        intro q hq
        rcases List.mem_map.mp (buildDependsOn_keys deps q hq) with ⟨d, hdmem, heq⟩
        rcases hwf d hdmem with ⟨t, htmem, hdb, hnm⟩
        rw [← heq]
        refine List.mem_map.mpr ⟨t, htmem, ?_⟩
        rw [hdb, hnm]
      have hloop : relaxLoop (buildDependsOn deps) db fuel
          (rootInit (tables.map (fun t => tableKey t.database t.name))
            (buildDependsOn deps)) = some depths := hd
      have hinv : KeysInv (tables.map (fun t => tableKey t.database t.name))
          depths :=
        relaxLoop_keysInv (buildDependsOn deps) db _ htkeys fuel _ depths
          (rootInit_keysInv _ _) hloop
      rw [max?_getD_foldr, max?_getD_foldr]
      apply Nat.le_antisymm
      · apply foldr_max_le
        intro v hv
        rcases List.mem_map.mp hv with ⟨p, hp, rfl⟩
        rcases List.mem_map.mp (hinv.1 p hp) with ⟨t, htmem, hkey⟩
        apply le_foldr_max
        rw [List.map_map]
        refine List.mem_map.mpr ⟨t, htmem, ?_⟩
        show (lookupA depths (tableKey t.database t.name)).getD 0 = p.2
        rw [hkey, lookupA_of_mem_nodup hinv.2 (show (p.1, p.2) ∈ depths from hp)]
        rfl
      · apply foldr_max_le
        intro v hv
        rw [List.map_map] at hv
        rcases List.mem_map.mp hv with ⟨t, _, rfl⟩
        show (lookupA depths (tableKey t.database t.name)).getD 0 ≤ _
        cases hlk : lookupA depths (tableKey t.database t.name) with
        | none => exact Nat.zero_le _
        | some v0 =>
          simp only [Option.getD_some]
          exact le_foldr_max (List.mem_map.mpr ⟨_, mem_of_lookupA hlk, rfl⟩)

def tablesW : List TableRow :=
  [⟨"testdb", "events", "MergeTree"⟩,
   ⟨"testdb", "events_daily", "MaterializedView"⟩,
   ⟨"testdb", "events_weekly", "MaterializedView"⟩]

def depsW : List DependencyRow :=
  [⟨"testdb", "events_daily", "testdb", "events"⟩,
   ⟨"testdb", "events_weekly", "testdb", "events_daily"⟩]

def secW : MvDagSection :=
  (MvDagCollector.build_dag 10 "testdb" tablesW depsW).getD ⟨[], [], 0, 0, 0⟩

theorem build_dag_section_stats_witness :
    (MvDagCollector.build_dag 10 "testdb" tablesW depsW = some secW) ∧
    ((∀ nd ∈ secW.nodes,
      nd.table_type = TableType.materialized_view ↔
        containsSub nd.engine "MaterializedView" = true) ∧
    secW.total_mvs = (secW.nodes.filter
      (fun n => decide (n.table_type = TableType.materialized_view))).length ∧
    secW.total_tables = (secW.nodes.filter
      (fun n => decide (n.table_type = TableType.table))).length ∧
    ((∀ d ∈ depsW, ∃ t ∈ tablesW, t.database = d.database ∧ t.name = d.name) →
      secW.max_depth = ((secW.nodes.map (fun n => n.depth)).max?).getD 0)) :=
  ⟨by decide, build_dag_section_stats 10 "testdb" tablesW depsW secW (by decide)⟩

/-! ## C5: the relaxation loop — termination without a cap

The source loop has no iteration cap.  On acyclic dependency maps it
reaches a fixed point; on a cyclic map reachable from a root it changes
some depth on every pass and never stops. -/

def cycTables : List TableRow :=
  [⟨"db", "r", "MergeTree"⟩, ⟨"db", "a", "MergeTree"⟩, ⟨"db", "b", "MergeTree"⟩]

def cycDeps : List DependencyRow :=
  [⟨"db", "a", "db", "r"⟩, ⟨"db", "a", "db", "b"⟩, ⟨"db", "b", "db", "a"⟩]

def cycDOn : List (String × List String) := buildDependsOn cycDeps

/-- The state after `k + 1` passes on the cyclic example. -/
def cycS (k : Nat) : List (String × Nat) :=
  [("db.r", 0), ("db.a", 2 * k + 1), ("db.b", 2 * k + 2)]

theorem cycDOn_eq : cycDOn = [("db.a", ["db.r", "db.b"]), ("db.b", ["db.a"])] := by
  decide

theorem relaxStep_update (db : String) (st : List (String × Nat) × Bool)
    (tv : String × List String) (m cur : Nat)
    (hdb : startsWithS tv.1 (db ++ ".") = true)
    (hm : maxDepDepth st.1 tv.2 = some m)
    (hcur : lookupA st.1 tv.1 = some cur) (hlt : cur < m + 1) :
    relaxStep db st tv = (insertA st.1 tv.1 (m + 1), true) := by
  unfold relaxStep
  rw [if_pos hdb, hm]
  simp only []
  rw [hcur]
  simp only []
  rw [if_pos hlt]

theorem relaxStep_insert_new (db : String) (st : List (String × Nat) × Bool)
    (tv : String × List String) (m : Nat)
    (hdb : startsWithS tv.1 (db ++ ".") = true)
    (hm : maxDepDepth st.1 tv.2 = some m)
    (hcur : lookupA st.1 tv.1 = none) :
    relaxStep db st tv = (insertA st.1 tv.1 (m + 1), true) := by
  unfold relaxStep
  rw [if_pos hdb, hm]
  simp only []
  rw [hcur]

theorem relaxStep_keep (db : String) (st : List (String × Nat) × Bool)
    (tv : String × List String) (m cur : Nat)
    (hdb : startsWithS tv.1 (db ++ ".") = true)
    (hm : maxDepDepth st.1 tv.2 = some m)
    (hcur : lookupA st.1 tv.1 = some cur) (hge : ¬ cur < m + 1) :
    relaxStep db st tv = st := by
  unfold relaxStep
  rw [if_pos hdb, hm]
  simp only []
  rw [hcur]
  simp only []
  rw [if_neg hge]

theorem relaxStep_nodep (db : String) (st : List (String × Nat) × Bool)
    (tv : String × List String)
    (hdb : startsWithS tv.1 (db ++ ".") = true)
    (hm : maxDepDepth st.1 tv.2 = none) :
    relaxStep db st tv = st := by
  unfold relaxStep
  rw [if_pos hdb, hm]

theorem relaxStep_nodb (db : String) (st : List (String × Nat) × Bool)
    (tv : String × List String)
    (hdb : ¬ startsWithS tv.1 (db ++ ".") = true) :
    relaxStep db st tv = st := by
  unfold relaxStep
  rw [if_neg hdb]

theorem cyc_pass (k : Nat) : relaxPass cycDOn "db" (cycS k) = (cycS (k + 1), true) := by
  unfold relaxPass
  rw [cycDOn_eq, List.foldl_cons, List.foldl_cons, List.foldl_nil]
  have hm1 : maxDepDepth (cycS k) ["db.r", "db.b"] = some (max 0 (2 * k + 2)) := by
    have hfm : List.filterMap (lookupA (cycS k)) ["db.r", "db.b"] =
        [0, 2 * k + 2] := rfl
    show (List.filterMap (lookupA (cycS k)) ["db.r", "db.b"]).max? = _
    rw [hfm]
    rfl
  rw [Nat.zero_max] at hm1
  have h1 := relaxStep_update "db" (cycS k, false) ("db.a", ["db.r", "db.b"])
    (2 * k + 2) (2 * k + 1) (by decide) hm1 rfl (by omega)
  rw [h1]
  have hins1 : insertA (cycS k) "db.a" (2 * k + 2 + 1) =
      [("db.r", 0), ("db.a", 2 * k + 3), ("db.b", 2 * k + 2)] := by
    show insertA [("db.r", 0), ("db.a", 2 * k + 1), ("db.b", 2 * k + 2)] _ _ = _
    unfold insertA
    rw [if_pos (show containsA [("db.r", 0), ("db.a", 2 * k + 1),
      ("db.b", 2 * k + 2)] "db.a" = true from rfl)]
    show [("db.r", 0), ("db.a", 2 * k + 2 + 1), ("db.b", 2 * k + 2)] = _
    have : 2 * k + 2 + 1 = 2 * k + 3 := rfl
    rw [this]
  rw [hins1]
  have hm2 : maxDepDepth [("db.r", 0), ("db.a", 2 * k + 3), ("db.b", 2 * k + 2)]
      ["db.a"] = some (2 * k + 3) := rfl
  have h2 := relaxStep_update "db"
    ([("db.r", 0), ("db.a", 2 * k + 3), ("db.b", 2 * k + 2)], true)
    ("db.b", ["db.a"]) (2 * k + 3) (2 * k + 2) (by decide) hm2 rfl (by omega)
  rw [h2]
  have hins2 : insertA [("db.r", 0), ("db.a", 2 * k + 3), ("db.b", 2 * k + 2)]
      "db.b" (2 * k + 3 + 1) = cycS (k + 1) := by
    unfold insertA
    rw [if_pos (show containsA [("db.r", 0), ("db.a", 2 * k + 3),
      ("db.b", 2 * k + 2)] "db.b" = true from rfl)]
    show [("db.r", 0), ("db.a", 2 * k + 3), ("db.b", 2 * k + 3 + 1)] = _
    have h4 : 2 * k + 3 + 1 = 2 * (k + 1) + 2 := by omega
    have h3 : 2 * k + 3 = 2 * (k + 1) + 1 := by omega
    rw [h4, h3]
    rfl
  rw [hins2]

theorem cyc_first_pass : relaxPass cycDOn "db" [("db.r", 0)] = (cycS 0, true) := by
  decide

theorem cyc_loop_none (fuel : Nat) :
    ∀ k, relaxLoop cycDOn "db" fuel (cycS k) = none := by
  induction fuel with
  | zero => intro k; rfl
  | succ f ih =>
    intro k
    unfold relaxLoop
    simp only [cyc_pass k]
    exact ih (k + 1)

theorem cyc_calculate_depths_none (fuel : Nat) :
    MvDagCollector.calculate_depths fuel cycTables cycDOn "db" = none := by
  unfold MvDagCollector.calculate_depths
  have hroot : rootInit (cycTables.map (fun t => tableKey t.database t.name))
      cycDOn = [("db.r", 0)] := by decide
  rw [hroot]
  cases fuel with
  | zero => rfl
  | succ f =>
    unfold relaxLoop
    simp only [cyc_first_pass]
    exact cyc_loop_none f 0

/-- C5 counterexample: the claim says a non-terminating scan is capped
after the number of nodes (3 here); in fact there is no cap — after 3
full passes, and still after 50, the loop has not stopped. -/
theorem calculate_depths_no_cap_counterexample :
    MvDagCollector.calculate_depths 3 cycTables cycDOn "db" = none ∧
    MvDagCollector.calculate_depths 50 cycTables cycDOn "db" = none :=
  ⟨cyc_calculate_depths_none 3, cyc_calculate_depths_none 50⟩

/-! ### Termination of the relaxation on acyclic input -/

/-- Potential: the sum of all stored depths plus one per entry; every
change of a pass strictly increases it, and acyclicity bounds it. -/
def phiD (d : List (String × Nat)) : Nat := (d.map (fun p => p.2 + 1)).sum

/-- Acyclicity invariant: every stored depth is at most the rank of its
key. -/
def ValInv (rank : String → Nat) (d : List (String × Nat)) : Prop :=
  ∀ p ∈ d, p.2 ≤ rank p.1

theorem containsA_true_of_lookupA {α : Type} {d : List (String × α)} {k : String}
    {v : α} (h : lookupA d k = some v) : containsA d k = true := by
  cases hc : containsA d k with
  | false => rw [containsA_eq_false_lookupA d k hc] at h; cases h
  | true => rfl

theorem lookupA_isSome_of_containsA {α : Type} {d : List (String × α)} {k : String}
    (h : containsA d k = true) : (lookupA d k).isSome := by
  unfold containsA at h
  rcases List.any_eq_true.mp h with ⟨p, hp, hpk⟩
  unfold lookupA
  cases hf : d.find? (fun p => p.1 = k) with
  | some q => rfl
  | none =>
    have := List.find?_eq_none.mp hf p hp
    exact absurd hpk (by simpa using this)

theorem phi_insertA_new (d : List (String × Nat)) (k : String) (v : Nat)
    (hc : containsA d k = false) : phiD (insertA d k v) = phiD d + (v + 1) := by
  unfold insertA
  rw [if_neg (by simp [hc])]
  unfold phiD
  rw [List.map_append, List.sum_append]
  rfl

theorem phi_replaceAll (d : List (String × Nat)) (k : String) (v cur : Nat)
    (hnd : (d.map Prod.fst).Nodup) (hcur : lookupA d k = some cur) :
    phiD (d.map (fun p => if p.1 = k then (k, v) else p)) + cur = phiD d + v := by
  induction d with
  | nil => cases hcur
  | cons p rest ih =>
    rw [lookupA_cons] at hcur
    rw [List.map_cons, List.nodup_cons] at hnd
    unfold phiD
    rw [List.map_cons, List.map_cons, List.sum_cons, List.map_cons, List.sum_cons]
    by_cases hpk : p.1 = k
    · rw [if_pos hpk] at hcur ⊢
      have hc : cur = p.2 := by
        cases hcur
        rfl
      have hrest : rest.map (fun p => if p.1 = k then (k, v) else p) = rest := by
        have hcong : ∀ q ∈ rest, (fun p => if p.1 = k then (k, v) else p) q = q := by
          intro q hq
          have hqk : ¬ q.1 = k := by
            intro hqk
            exact hnd.1 (by
              rw [hpk, ← hqk]
              exact List.mem_map_of_mem Prod.fst hq)
          exact if_neg hqk
        rw [List.map_congr_left hcong]
        exact List.map_id rest
      rw [hrest]
      omega
    · rw [if_neg hpk] at hcur ⊢
      have := ih hnd.2 hcur
      unfold phiD at this
      omega

theorem phi_insertA_update (d : List (String × Nat)) (k : String) (v cur : Nat)
    (hnd : (d.map Prod.fst).Nodup) (hcur : lookupA d k = some cur) :
    phiD (insertA d k v) + cur = phiD d + v := by
  unfold insertA
  rw [if_pos (containsA_true_of_lookupA hcur)]
  exact phi_replaceAll d k v cur hnd hcur

theorem relaxStep_phi (db : String) (st : List (String × Nat) × Bool)
    (tv : String × List String) (hnd : (st.1.map Prod.fst).Nodup) :
    phiD st.1 ≤ phiD (relaxStep db st tv).1 ∧
    ((relaxStep db st tv).2 = st.2 ∨
      ((relaxStep db st tv).2 = true ∧ phiD st.1 < phiD (relaxStep db st tv).1)) := by
  by_cases hdb : startsWithS tv.1 (db ++ ".") = true
  · cases hm : maxDepDepth st.1 tv.2 with
    | none =>
      rw [relaxStep_nodep db st tv hdb hm]
      exact ⟨Nat.le_refl _, Or.inl rfl⟩
    | some m =>
      cases hcur : lookupA st.1 tv.1 with
      | none =>
        have hcf : containsA st.1 tv.1 = false := by
          cases hct : containsA st.1 tv.1 with
          | false => rfl
          | true =>
            have := lookupA_isSome_of_containsA hct
            rw [hcur] at this
            cases this
        have hphi := phi_insertA_new st.1 tv.1 (m + 1) hcf
        rw [relaxStep_insert_new db st tv m hdb hm hcur]
        refine ⟨?_, Or.inr ⟨rfl, ?_⟩⟩
        · show phiD st.1 ≤ phiD (insertA st.1 tv.1 (m + 1))
          omega
        · show phiD st.1 < phiD (insertA st.1 tv.1 (m + 1))
          omega
      | some cur =>
        by_cases hlt : cur < m + 1
        · have hphi := phi_insertA_update st.1 tv.1 (m + 1) cur hnd hcur
          rw [relaxStep_update db st tv m cur hdb hm hcur hlt]
          refine ⟨?_, Or.inr ⟨rfl, ?_⟩⟩
          · show phiD st.1 ≤ phiD (insertA st.1 tv.1 (m + 1))
            omega
          · show phiD st.1 < phiD (insertA st.1 tv.1 (m + 1))
            omega
        · rw [relaxStep_keep db st tv m cur hdb hm hcur hlt]
          exact ⟨Nat.le_refl _, Or.inl rfl⟩
  · rw [relaxStep_nodb db st tv hdb]
    exact ⟨Nat.le_refl _, Or.inl rfl⟩

theorem foldl_relaxStep_phi (db : String) (tk : List String)
    (l : List (String × List String)) :
    ∀ st : List (String × Nat) × Bool, KeysInv tk st.1 → (∀ q ∈ l, q.1 ∈ tk) →
      phiD st.1 ≤ phiD (l.foldl (relaxStep db) st).1 ∧
      ((l.foldl (relaxStep db) st).2 = st.2 ∨
        ((l.foldl (relaxStep db) st).2 = true ∧
          phiD st.1 < phiD (l.foldl (relaxStep db) st).1)) := by
  induction l with
  | nil => intro st _ _; exact ⟨Nat.le_refl _, Or.inl rfl⟩
  | cons tv rest ih =>
    intro st hK hl
    rw [List.foldl_cons]
    have hKstep := relaxStep_keysInv db tk st tv hK (hl tv (List.mem_cons_self tv rest))
    have hstep := relaxStep_phi db st tv hK.2
    have hrest := ih (relaxStep db st tv) hKstep
      (fun q hq => hl q (List.mem_cons_of_mem tv hq))
    refine ⟨le_trans hstep.1 hrest.1, ?_⟩
    rcases hrest.2 with heq | ⟨ht, hlt⟩
    · rcases hstep.2 with heq2 | ⟨ht2, hlt2⟩
      · exact Or.inl (heq.trans heq2)
      · exact Or.inr ⟨heq.trans ht2, lt_of_lt_of_le hlt2 hrest.1⟩
    · exact Or.inr ⟨ht, lt_of_le_of_lt hstep.1 hlt⟩

theorem relaxPass_phi_changed (dOn : List (String × List String)) (db : String)
    (tk : List String) (d : List (String × Nat)) (hK : KeysInv tk d)
    (hdOn : ∀ q ∈ dOn, q.1 ∈ tk) (hch : (relaxPass dOn db d).2 = true) :
    phiD d < phiD (relaxPass dOn db d).1 := by
  have h := foldl_relaxStep_phi db tk dOn (d, false) hK hdOn
  rcases h.2 with heq | ⟨_, hlt⟩
  · rw [show relaxPass dOn db d = dOn.foldl (relaxStep db) (d, false) from rfl] at hch
    rw [heq] at hch
    cases hch
  · exact hlt

theorem relaxStep_valInv (db : String) (rank : String → Nat)
    (st : List (String × Nat) × Bool) (tv : String × List String)
    (hv : ValInv rank st.1) (htv : ∀ u ∈ tv.2, rank u < rank tv.1) :
    ValInv rank (relaxStep db st tv).1 := by
  have hins : ∀ m, maxDepDepth st.1 tv.2 = some m →
      ValInv rank (insertA st.1 tv.1 (m + 1)) := by
    intro m hm
    have hmem : m ∈ tv.2.filterMap (lookupA st.1) :=
      List.max?_mem (fun a b => max_choice a b) hm
    rcases List.mem_filterMap.mp hmem with ⟨u, hu, hlk⟩
    have hmu : m ≤ rank u := hv (u, m) (mem_of_lookupA hlk)
    have hbound : m + 1 ≤ rank tv.1 := by
      have := htv u hu
      omega
    intro p hp
    rcases mem_insertA hp with hmem2 | rfl
    · exact hv p hmem2
    · exact hbound
  by_cases hdb : startsWithS tv.1 (db ++ ".") = true
  · cases hm : maxDepDepth st.1 tv.2 with
    | none =>
      rw [relaxStep_nodep db st tv hdb hm]
      exact hv
    | some m =>
      cases hcur : lookupA st.1 tv.1 with
      | none =>
        rw [relaxStep_insert_new db st tv m hdb hm hcur]
        exact hins m hm
      | some cur =>
        by_cases hlt : cur < m + 1
        · rw [relaxStep_update db st tv m cur hdb hm hcur hlt]
          exact hins m hm
        · rw [relaxStep_keep db st tv m cur hdb hm hcur hlt]
          exact hv
  · rw [relaxStep_nodb db st tv hdb]
    exact hv

theorem foldl_relaxStep_valInv (db : String) (rank : String → Nat)
    (l : List (String × List String))
    (hl : ∀ q ∈ l, ∀ u ∈ q.2, rank u < rank q.1) :
    ∀ st : List (String × Nat) × Bool, ValInv rank st.1 →
      ValInv rank (l.foldl (relaxStep db) st).1 := by
  induction l with
  | nil => intro st hv; exact hv
  | cons tv rest ih =>
    intro st hv
    rw [List.foldl_cons]
    exact ih (fun q hq => hl q (List.mem_cons_of_mem tv hq))
      (relaxStep db st tv)
      (relaxStep_valInv db rank st tv hv (hl tv (List.mem_cons_self tv rest)))

theorem relaxPass_valInv (dOn : List (String × List String)) (db : String)
    (rank : String → Nat) (d : List (String × Nat)) (hv : ValInv rank d)
    (hdOn : ∀ q ∈ dOn, ∀ u ∈ q.2, rank u < rank q.1) :
    ValInv rank (relaxPass dOn db d).1 :=
  foldl_relaxStep_valInv db rank dOn hdOn (d, false) hv

theorem sum_map_le_length_mul {α : Type} (l : List α) (f : α → Nat) (c : Nat)
    (h : ∀ x ∈ l, f x ≤ c) : (l.map f).sum ≤ l.length * c := by
  induction l with
  | nil => exact Nat.zero_le _
  | cons x xs ih =>
    rw [List.map_cons, List.sum_cons, List.length_cons, Nat.succ_mul]
    have h1 := h x (List.mem_cons_self x xs)
    have h2 := ih (fun y hy => h y (List.mem_cons_of_mem x hy))
    omega

theorem nodup_subset_length {l1 l2 : List String} (hnd : l1.Nodup)
    (hsub : ∀ x ∈ l1, x ∈ l2) : l1.length ≤ l2.dedup.length := by
  have h1 : l1.toFinset.card = l1.length := List.toFinset_card_of_nodup hnd
  have h2 : l2.toFinset.card = l2.dedup.length := List.card_toFinset l2
  have hsubf : l1.toFinset ⊆ l2.toFinset := fun x hx =>
    List.mem_toFinset.mpr (hsub x (List.mem_toFinset.mp hx))
  calc l1.length = l1.toFinset.card := h1.symm
    _ ≤ l2.toFinset.card := Finset.card_le_card hsubf
    _ = l2.dedup.length := h2

theorem valInv_phi_bound (tk : List String) (rank : String → Nat)
    (d : List (String × Nat)) (hK : KeysInv tk d) (hV : ValInv rank d) :
    phiD d ≤ tk.dedup.length * ((tk.map rank).foldr max 0 + 1) := by
  have hterm : ∀ p ∈ d, p.2 + 1 ≤ (tk.map rank).foldr max 0 + 1 := by
    intro p hp
    have h1 : p.2 ≤ rank p.1 := hV p hp
    have h2 : rank p.1 ≤ (tk.map rank).foldr max 0 :=
      le_foldr_max (List.mem_map_of_mem rank (hK.1 p hp))
    omega
  have hlen : d.length ≤ tk.dedup.length := by
    have : (d.map Prod.fst).length ≤ tk.dedup.length :=
      nodup_subset_length hK.2 (fun x hx => by
        rcases List.mem_map.mp hx with ⟨p, hp, rfl⟩
        exact hK.1 p hp)
    simpa using this
  calc phiD d ≤ d.length * ((tk.map rank).foldr max 0 + 1) :=
        sum_map_le_length_mul d (fun p => p.2 + 1) _ hterm
    _ ≤ tk.dedup.length * ((tk.map rank).foldr max 0 + 1) :=
        Nat.mul_le_mul_right _ hlen

/-! ### Fixed points: a finished loop made no change in its last pass -/

theorem relaxStep_false {db : String} {st : List (String × Nat) × Bool}
    {tv : String × List String} (h : (relaxStep db st tv).2 = false) :
    relaxStep db st tv = st := by
  by_cases hdb : startsWithS tv.1 (db ++ ".") = true
  · cases hm : maxDepDepth st.1 tv.2 with
    | none => exact relaxStep_nodep db st tv hdb hm
    | some m =>
      cases hcur : lookupA st.1 tv.1 with
      | none =>
        rw [relaxStep_insert_new db st tv m hdb hm hcur] at h
        cases h
      | some cur =>
        by_cases hlt : cur < m + 1
        · rw [relaxStep_update db st tv m cur hdb hm hcur hlt] at h
          cases h
        · exact relaxStep_keep db st tv m cur hdb hm hcur hlt
  · exact relaxStep_nodb db st tv hdb

theorem relaxStep_true_mono {db : String} {st : List (String × Nat) × Bool}
    {tv : String × List String} (h : st.2 = true) :
    (relaxStep db st tv).2 = true := by
  by_cases hdb : startsWithS tv.1 (db ++ ".") = true
  · cases hm : maxDepDepth st.1 tv.2 with
    | none =>
      rw [relaxStep_nodep db st tv hdb hm]
      exact h
    | some m =>
      cases hcur : lookupA st.1 tv.1 with
      | none => rw [relaxStep_insert_new db st tv m hdb hm hcur]
      | some cur =>
        by_cases hlt : cur < m + 1
        · rw [relaxStep_update db st tv m cur hdb hm hcur hlt]
        · rw [relaxStep_keep db st tv m cur hdb hm hcur hlt]
          exact h
  · rw [relaxStep_nodb db st tv hdb]
    exact h

theorem foldl_relaxStep_true_mono (db : String)
    (l : List (String × List String)) :
    ∀ st : List (String × Nat) × Bool, st.2 = true →
      (l.foldl (relaxStep db) st).2 = true := by
  induction l with
  | nil => intro st h; exact h
  | cons tv rest ih =>
    intro st h
    rw [List.foldl_cons]
    exact ih _ (relaxStep_true_mono h)

theorem foldl_relaxStep_unchanged (db : String)
    (l : List (String × List String)) :
    ∀ st : List (String × Nat) × Bool,
      (l.foldl (relaxStep db) st).2 = false → l.foldl (relaxStep db) st = st := by
  induction l with
  | nil => intro st _; rfl
  | cons tv rest ih =>
    intro st h
    rw [List.foldl_cons] at h ⊢
    cases hst : (relaxStep db st tv).2 with
    | true => rw [foldl_relaxStep_true_mono db rest _ hst] at h; cases h
    | false =>
      rw [relaxStep_false hst] at h ⊢
      exact ih st h

theorem relaxPass_unchanged {dOn : List (String × List String)} {db : String}
    {d : List (String × Nat)} (h : (relaxPass dOn db d).2 = false) :
    relaxPass dOn db d = (d, false) :=
  foldl_relaxStep_unchanged db dOn (d, false) h

theorem relaxLoop_some_fixed {dOn : List (String × List String)} {db : String} :
    ∀ {fuel : Nat} {d res : List (String × Nat)},
      relaxLoop dOn db fuel d = some res → relaxPass dOn db res = (res, false) := by
  intro fuel
  induction fuel with
  | zero => intro d res h; cases h
  | succ f ih =>
    intro d res h
    unfold relaxLoop at h
    cases hch : (relaxPass dOn db d).2 with
    | true =>
      rw [if_pos (by rw [hch])] at h
      exact ih h
    | false =>
      rw [if_neg (by rw [hch]; exact Bool.false_ne_true)] at h
      cases h
      have hu := relaxPass_unchanged hch
      rw [show (relaxPass dOn db d).1 = d from by rw [hu]]
      exact hu

theorem rootInit_values (tkeys : List String)
    (dOn : List (String × List String)) :
    ∀ p ∈ rootInit tkeys dOn, p.2 = 0 := by
  unfold rootInit
  suffices h : ∀ (l : List String) (acc : List (String × Nat)),
      (∀ p ∈ acc, p.2 = 0) →
      ∀ p ∈ l.foldl
        (fun acc k => if containsA dOn k then acc else insertA acc k 0) acc,
        p.2 = 0 by
    exact h tkeys [] (fun p hp => absurd hp (by simp))
  intro l
  induction l with
  | nil => intro acc hacc; exact hacc
  | cons k rest ih =>
    intro acc hacc
    rw [List.foldl_cons]
    apply ih
    by_cases hc : containsA dOn k
    · rw [if_pos hc]
      exact hacc
    · rw [if_neg hc]
      intro p hp
      rcases mem_insertA hp with hmem | rfl
      · exact hacc p hmem
      · rfl

theorem keysInv_mono {tk1 tk2 : List String} {d : List (String × Nat)}
    (h : KeysInv tk1 d) (hsub : ∀ x ∈ tk1, x ∈ tk2) : KeysInv tk2 d :=
  ⟨fun p hp => hsub p.1 (h.1 p hp), h.2⟩

theorem relaxLoop_term_aux (dOn : List (String × List String)) (db : String)
    (tk : List String) (rank : String → Nat) (hdOn : ∀ q ∈ dOn, q.1 ∈ tk)
    (hrank : ∀ q ∈ dOn, ∀ u ∈ q.2, rank u < rank q.1) :
    ∀ (n : Nat) (d : List (String × Nat)), KeysInv tk d → ValInv rank d →
      tk.dedup.length * ((tk.map rank).foldr max 0 + 1) < phiD d + n →
      ∃ res, relaxLoop dOn db n d = some res := by
  intro n
  induction n with
  | zero =>
    intro d hK hV hlt
    have := valInv_phi_bound tk rank d hK hV
    omega
  | succ f ih =>
    intro d hK hV hlt
    unfold relaxLoop
    cases hch : (relaxPass dOn db d).2 with
    | true =>
      rw [if_pos (by rw [hch])]
      have hK2 := relaxPass_keysInv dOn db tk d hK hdOn
      have hV2 := relaxPass_valInv dOn db rank d hV hrank
      have hphi := relaxPass_phi_changed dOn db tk d hK hdOn hch
      exact ih (relaxPass dOn db d).1 hK2 hV2 (by omega)
    | false =>
      rw [if_neg (by rw [hch]; exact Bool.false_ne_true)]
      exact ⟨_, rfl⟩

/-- On rank-acyclic dependency maps the relaxation reaches a fixed point
within explicit fuel. -/
theorem calculate_depths_terminates (db : String) (tables : List TableRow)
    (dOn : List (String × List String)) (rank : String → Nat)
    (hrank : ∀ q ∈ dOn, ∀ u ∈ q.2, rank u < rank q.1) :
    ∃ fuel depths, MvDagCollector.calculate_depths fuel tables dOn db = some depths ∧
      relaxPass dOn db depths = (depths, false) := by
  set tkeys := tables.map (fun t => tableKey t.database t.name) with htkeys
  set tk := tkeys ++ dOn.map Prod.fst with htk
  have hdOn : ∀ q ∈ dOn, q.1 ∈ tk := by
    intro q hq
    rw [htk]
    exact List.mem_append.mpr (Or.inr (List.mem_map_of_mem Prod.fst hq))
  have hKinit : KeysInv tk (rootInit tkeys dOn) :=
    keysInv_mono (rootInit_keysInv tkeys dOn)
      (fun x hx => List.mem_append.mpr (Or.inl hx))
  have hVinit : ValInv rank (rootInit tkeys dOn) := by
    intro p hp
    rw [rootInit_values tkeys dOn p hp]
    exact Nat.zero_le _
  obtain ⟨res, hres⟩ := relaxLoop_term_aux dOn db tk rank hdOn hrank
    (tk.dedup.length * ((tk.map rank).foldr max 0 + 1) + 1)
    (rootInit tkeys dOn) hKinit hVinit (by omega)
  exact ⟨_, res, hres, relaxLoop_some_fixed hres⟩

/-- C5 (amended): the iterative relaxation reaches a fixed point on
acyclic dependency input (any input admitting a rank function that
strictly drops along dependencies), but on cyclic input there is no
iteration cap: on the three-node cyclic example every pass changes a
depth and the scan never stops, for any number of iterations. -/
theorem calculate_depths_termination :
    (∀ (db : String) (tables : List TableRow)
      (dOn : List (String × List String)) (rank : String → Nat),
      (∀ q ∈ dOn, ∀ u ∈ q.2, rank u < rank q.1) →
      ∃ fuel depths,
        MvDagCollector.calculate_depths fuel tables dOn db = some depths ∧
        relaxPass dOn db depths = (depths, false)) ∧
    (∀ fuel, MvDagCollector.calculate_depths fuel cycTables cycDOn "db" = none) :=
  ⟨fun db tables dOn rank hrank =>
      calculate_depths_terminates db tables dOn rank hrank,
    cyc_calculate_depths_none⟩

def rankW : String → Nat := fun s =>
  if s = "testdb.events" then 0 else if s = "testdb.events_daily" then 1 else 2

theorem calculate_depths_termination_witness :
    (∀ q ∈ buildDependsOn depsW, ∀ u ∈ q.2, rankW u < rankW q.1) ∧
    (∃ fuel depths,
      MvDagCollector.calculate_depths fuel tablesW (buildDependsOn depsW)
        "testdb" = some depths ∧
      relaxPass (buildDependsOn depsW) "testdb" depths = (depths, false)) :=
  ⟨by decide,
    calculate_depths_termination.1 "testdb" tablesW (buildDependsOn depsW)
      rankW (by decide)⟩

/-! ## C6: depth correctness at the fixed point

Characterisation of the dependency map built from the raw rows, and of
the root initialisation. -/

theorem insertAppend_keys_nodup (l : List (String × List String)) (k v : String)
    (h : (l.map Prod.fst).Nodup) : ((insertAppend l k v).map Prod.fst).Nodup := by
  unfold insertAppend
  by_cases hc : containsA l k
  · rw [if_pos hc]
    have heq : (l.map (fun p => if p.1 = k then (p.1, p.2 ++ [v]) else p)).map
        Prod.fst = l.map Prod.fst := by
      rw [List.map_map]
      apply List.map_congr_left
      intro p _
      by_cases hpk : p.1 = k
      · simp [hpk]
      · simp [hpk]
    rw [heq]
    exact h
  · rw [if_neg hc, List.map_append]
    have hknot : ∀ p ∈ l, ¬ p.1 = k :=
      containsA_eq_false_iff.mp (by simpa using hc)
    refine List.Nodup.append h (List.nodup_singleton k) ?_
    intro x hx hy
    rcases List.mem_singleton.mp (by simpa using hy) with rfl
    rcases List.mem_map.mp hx with ⟨p, hp, hpk⟩
    exact hknot p hp hpk

theorem buildDependsOn_keys_nodup (deps : List DependencyRow) :
    ((buildDependsOn deps).map Prod.fst).Nodup := by
  unfold buildDependsOn
  suffices h : ∀ (l : List DependencyRow) (acc : List (String × List String)),
      (acc.map Prod.fst).Nodup →
      ((l.foldl (fun m d =>
        insertAppend m (tableKey d.database d.name)
          (tableKey d.dep_database d.dep_table)) acc).map Prod.fst).Nodup by
    exact h deps [] (by simp)
  intro l
  induction l with
  | nil => intro acc hacc; exact hacc
  | cons d rest ih =>
    intro acc hacc
    rw [List.foldl_cons]
    exact ih _ (insertAppend_keys_nodup acc _ _ hacc)

theorem lookupA_replaceAppend (l : List (String × List String)) (k' k v : String) :
    lookupA (l.map (fun p => if p.1 = k' then (p.1, p.2 ++ [v]) else p)) k =
      if k' = k then (lookupA l k).map (fun l0 => l0 ++ [v])
      else lookupA l k := by
  induction l with
  | nil => by_cases hk : k' = k <;> simp [hk, lookupA_nil]
  | cons p rest ih =>
    rw [List.map_cons, lookupA_cons]
    by_cases hpk : p.1 = k'
    · rw [if_pos hpk]
      by_cases hk : k' = k
      · have hpkk : p.1 = k := by rw [hpk, hk]
        rw [if_pos hk, lookupA_cons, if_pos hpkk]
        simp [hpkk]
      · have hpkk : ¬ p.1 = k := by rw [hpk]; exact hk
        rw [if_neg hk, lookupA_cons, if_neg hpkk]
        simp only [hpkk, if_neg]
        rw [ih, if_neg hk]
        simp
    · rw [if_neg hpk]
      by_cases hpkk : p.1 = k
      · by_cases hk : k' = k
        · exact absurd (hk ▸ hpkk) hpk
        · rw [if_neg hk, lookupA_cons, if_pos hpkk]
          simp [hpkk]
      · rw [lookupA_cons, if_neg hpkk]
        simp only [hpkk, if_neg]
        exact ih

theorem lookupA_insertAppend (l : List (String × List String)) (k' v k : String) :
    lookupA (insertAppend l k' v) k =
      if k' = k then some ((lookupA l k).getD [] ++ [v])
      else lookupA l k := by
  unfold insertAppend
  by_cases hc : containsA l k'
  · rw [if_pos hc, lookupA_replaceAppend]
    by_cases hk : k' = k
    · subst hk
      rcases Option.isSome_iff_exists.mp (lookupA_isSome_of_containsA hc)
        with ⟨l0, hl0⟩
      rw [if_pos rfl, if_pos rfl, hl0]
      rfl
    · rw [if_neg hk, if_neg hk]
  · rw [if_neg hc, lookupA_append]
    by_cases hk : k' = k
    · subst hk
      rw [containsA_eq_false_lookupA l k' (by simpa using hc), if_pos rfl]
      simp only []
      rw [lookupA_cons, if_pos rfl]
      rfl
    · rw [if_neg hk]
      cases hl : lookupA l k with
      | some w => rfl
      | none =>
        rw [lookupA_cons, if_neg hk, lookupA_nil]

/-- The dependency list the raw rows contribute for a given key, in row
order. -/
def depListOf (deps : List DependencyRow) (k : String) : List String :=
  (deps.filter (fun d => decide (tableKey d.database d.name = k))).map
    (fun d => tableKey d.dep_database d.dep_table)

theorem depListOf_cons (d : DependencyRow) (rest : List DependencyRow) (k : String) :
    depListOf (d :: rest) k =
      if tableKey d.database d.name = k then
        tableKey d.dep_database d.dep_table :: depListOf rest k
      else depListOf rest k := by
  unfold depListOf
  rw [List.filter_cons]
  by_cases hk : tableKey d.database d.name = k
  · simp [hk]
  · simp [hk]

theorem foldl_insertAppend_lookup (deps : List DependencyRow) :
    ∀ (acc : List (String × List String)) (k : String),
    lookupA (deps.foldl (fun m d =>
      insertAppend m (tableKey d.database d.name)
        (tableKey d.dep_database d.dep_table)) acc) k =
      match lookupA acc k with
      | some l0 => some (l0 ++ depListOf deps k)
      | none => if depListOf deps k = [] then none else some (depListOf deps k) := by
  induction deps with
  | nil =>
    intro acc k
    cases h : lookupA acc k <;> simp [depListOf, h]
  | cons d rest ih =>
    intro acc k
    rw [List.foldl_cons, ih, depListOf_cons, lookupA_insertAppend]
    by_cases hk : tableKey d.database d.name = k
    · rw [if_pos hk, if_pos hk]
      cases h : lookupA acc k with
      | some l0 =>
        simp only [h, Option.getD_some]
        rw [List.append_assoc]
        rfl
      | none =>
        simp only [h, Option.getD_none, List.nil_append]
        rw [if_neg (by simp)]
        rfl
    · rw [if_neg hk, if_neg hk]

theorem buildDependsOn_lookup (deps : List DependencyRow) (k : String) :
    lookupA (buildDependsOn deps) k =
      if depListOf deps k = [] then none else some (depListOf deps k) := by
  unfold buildDependsOn
  rw [foldl_insertAppend_lookup deps [] k]
  rw [lookupA_nil]

theorem rootInit_lookup (tkeys : List String) (dOn : List (String × List String)) :
    ∀ k, lookupA (rootInit tkeys dOn) k =
      if k ∈ tkeys ∧ containsA dOn k = false then some 0 else none := by
  unfold rootInit
  suffices h : ∀ (l : List String) (acc : List (String × Nat)) (k : String),
      lookupA (l.foldl
        (fun acc k => if containsA dOn k then acc else insertA acc k 0) acc) k =
      if k ∈ l ∧ containsA dOn k = false then some 0 else lookupA acc k by
    intro k
    rw [h tkeys [] k, lookupA_nil]
  intro l
  induction l with
  | nil =>
    intro acc k
    rw [List.foldl_nil, if_neg (by simp)]
  | cons k1 rest ih =>
    intro acc k
    rw [List.foldl_cons, ih]
    by_cases hmem : k ∈ rest ∧ containsA dOn k = false
    · rw [if_pos hmem, if_pos ⟨List.mem_cons_of_mem k1 hmem.1, hmem.2⟩]
    · rw [if_neg hmem]
      by_cases hc1 : containsA dOn k1
      · rw [if_pos hc1]
        by_cases hk : k1 = k
        · subst hk
          rw [if_neg (by
            rintro ⟨_, hfalse⟩
            rw [hc1] at hfalse
            cases hfalse)]
        · rw [if_neg (by
            rintro ⟨hmemk, hck⟩
            rcases List.mem_cons.mp hmemk with rfl | htail
            · exact hk rfl
            · exact hmem ⟨htail, hck⟩)]
      · rw [if_neg hc1, lookupA_insertA]
        by_cases hk : k1 = k
        · subst hk
          rw [if_pos rfl,
            if_pos ⟨List.mem_cons_self k1 rest, by simpa using hc1⟩]
        · rw [if_neg hk, if_neg (by
            rintro ⟨hmemk, hck⟩
            rcases List.mem_cons.mp hmemk with rfl | htail
            · exact hk rfl
            · exact hmem ⟨htail, hck⟩)]

/-! Keys that are not keys of the dependency map are never written by the
relaxation. -/

theorem relaxStep_lookup_untouched (db : String) (st : List (String × Nat) × Bool)
    (tv : String × List String) (k0 : String) (hne : ¬ tv.1 = k0) :
    lookupA (relaxStep db st tv).1 k0 = lookupA st.1 k0 := by
  by_cases hdb : startsWithS tv.1 (db ++ ".") = true
  · cases hm : maxDepDepth st.1 tv.2 with
    | none => rw [relaxStep_nodep db st tv hdb hm]
    | some m =>
      cases hcur : lookupA st.1 tv.1 with
      | none =>
        rw [relaxStep_insert_new db st tv m hdb hm hcur]
        show lookupA (insertA st.1 tv.1 (m + 1)) k0 = _
        rw [lookupA_insertA, if_neg hne]
      | some cur =>
        by_cases hlt : cur < m + 1
        · rw [relaxStep_update db st tv m cur hdb hm hcur hlt]
          show lookupA (insertA st.1 tv.1 (m + 1)) k0 = _
          rw [lookupA_insertA, if_neg hne]
        · rw [relaxStep_keep db st tv m cur hdb hm hcur hlt]
  · rw [relaxStep_nodb db st tv hdb]

theorem foldl_relaxStep_lookup_untouched (db : String)
    (l : List (String × List String)) (k0 : String)
    (hne : ∀ tv ∈ l, ¬ tv.1 = k0) :
    ∀ st : List (String × Nat) × Bool,
      lookupA (l.foldl (relaxStep db) st).1 k0 = lookupA st.1 k0 := by
  induction l with
  | nil => intro st; rfl
  | cons tv rest ih =>
    intro st
    rw [List.foldl_cons]
    rw [ih (fun q hq => hne q (List.mem_cons_of_mem tv hq))]
    exact relaxStep_lookup_untouched db st tv k0 (hne tv (List.mem_cons_self tv rest))

theorem relaxLoop_lookup_untouched (dOn : List (String × List String))
    (db : String) (k0 : String) (hne : ∀ tv ∈ dOn, ¬ tv.1 = k0) :
    ∀ (fuel : Nat) (d res : List (String × Nat)),
      relaxLoop dOn db fuel d = some res →
      lookupA res k0 = lookupA d k0 := by
  intro fuel
  induction fuel with
  | zero => intro d res h; cases h
  | succ f ih =>
    intro d res h
    unfold relaxLoop at h
    cases hch : (relaxPass dOn db d).2 with
    | true =>
      rw [if_pos (by rw [hch])] at h
      rw [ih _ _ h]
      exact foldl_relaxStep_lookup_untouched db dOn k0 hne (d, false)
    | false =>
      rw [if_neg (by rw [hch]; exact Bool.false_ne_true)] at h
      cases h
      exact foldl_relaxStep_lookup_untouched db dOn k0 hne (d, false)

/-! ### Depth maps only grow during the relaxation -/

def depthsLE (d1 d2 : List (String × Nat)) : Prop :=
  ∀ k v, lookupA d1 k = some v → ∃ v2, lookupA d2 k = some v2 ∧ v ≤ v2

theorem depthsLE_refl (d : List (String × Nat)) : depthsLE d d :=
  fun _ v h => ⟨v, h, Nat.le_refl v⟩

theorem depthsLE_trans {d1 d2 d3 : List (String × Nat)} (h12 : depthsLE d1 d2)
    (h23 : depthsLE d2 d3) : depthsLE d1 d3 := by
  intro k v h
  rcases h12 k v h with ⟨v2, h2, hle2⟩
  rcases h23 k v2 h2 with ⟨v3, h3, hle3⟩
  exact ⟨v3, h3, le_trans hle2 hle3⟩

theorem depthsLE_insertA (d : List (String × Nat)) (k : String) (v : Nat)
    (hup : ∀ cur, lookupA d k = some cur → cur ≤ v) :
    depthsLE d (insertA d k v) := by
  intro k0 v0 h
  rw [lookupA_insertA]
  by_cases hk : k = k0
  · subst hk
    exact ⟨v, if_pos rfl, hup v0 h⟩
  · rw [if_neg hk]
    exact ⟨v0, h, Nat.le_refl v0⟩

theorem relaxStep_depthsLE (db : String) (st : List (String × Nat) × Bool)
    (tv : String × List String) : depthsLE st.1 (relaxStep db st tv).1 := by
  by_cases hdb : startsWithS tv.1 (db ++ ".") = true
  · cases hm : maxDepDepth st.1 tv.2 with
    | none =>
      rw [relaxStep_nodep db st tv hdb hm]
      exact depthsLE_refl _
    | some m =>
      cases hcur : lookupA st.1 tv.1 with
      | none =>
        rw [relaxStep_insert_new db st tv m hdb hm hcur]
        exact depthsLE_insertA st.1 tv.1 (m + 1) (by
          intro cur hc
          rw [hcur] at hc
          cases hc)
      | some cur =>
        by_cases hlt : cur < m + 1
        · rw [relaxStep_update db st tv m cur hdb hm hcur hlt]
          exact depthsLE_insertA st.1 tv.1 (m + 1) (by
            intro cur2 hc
            rw [hcur] at hc
            cases hc
            omega)
        · rw [relaxStep_keep db st tv m cur hdb hm hcur hlt]
          exact depthsLE_refl _
  · rw [relaxStep_nodb db st tv hdb]
    exact depthsLE_refl _

theorem foldl_relaxStep_depthsLE (db : String) (l : List (String × List String)) :
    ∀ st : List (String × Nat) × Bool, depthsLE st.1 (l.foldl (relaxStep db) st).1 := by
  induction l with
  | nil => intro st; exact depthsLE_refl _
  | cons tv rest ih =>
    intro st
    rw [List.foldl_cons]
    exact depthsLE_trans (relaxStep_depthsLE db st tv) (ih (relaxStep db st tv))

theorem relaxLoop_depthsLE (dOn : List (String × List String)) (db : String) :
    ∀ (fuel : Nat) (d res : List (String × Nat)),
      relaxLoop dOn db fuel d = some res → depthsLE d res := by
  intro fuel
  induction fuel with
  | zero => intro d res h; cases h
  | succ f ih =>
    intro d res h
    unfold relaxLoop at h
    cases hch : (relaxPass dOn db d).2 with
    | true =>
      rw [if_pos (by rw [hch])] at h
      exact depthsLE_trans (foldl_relaxStep_depthsLE db dOn (d, false)) (ih _ _ h)
    | false =>
      rw [if_neg (by rw [hch]; exact Bool.false_ne_true)] at h
      cases h
      exact foldl_relaxStep_depthsLE db dOn (d, false)

theorem max?_some_of_mem {l : List Nat} {x : Nat} (h : x ∈ l) :
    ∃ mx, l.max? = some mx ∧ x ≤ mx := by
  cases l with
  | nil => cases h
  | cons y ys =>
    refine ⟨((y :: ys).max?).getD 0, rfl, ?_⟩
    rw [max?_getD_foldr]
    exact le_foldr_max h

theorem maxDepDepth_mono {d1 d2 : List (String × Nat)} (hle : depthsLE d1 d2)
    {ds : List String} {m : Nat} (hm : maxDepDepth d1 ds = some m) :
    ∃ m2, maxDepDepth d2 ds = some m2 ∧ m ≤ m2 := by
  have hmem : m ∈ ds.filterMap (lookupA d1) :=
    List.max?_mem (fun a b => max_choice a b) hm
  rcases List.mem_filterMap.mp hmem with ⟨u, hu, hlk⟩
  rcases hle u m hlk with ⟨v2, hlk2, hv2⟩
  have hmem2 : v2 ∈ ds.filterMap (lookupA d2) :=
    List.mem_filterMap.mpr ⟨u, hu, hlk2⟩
  rcases max?_some_of_mem hmem2 with ⟨mx, hmx, hvmx⟩
  exact ⟨mx, hmx, le_trans hv2 hvmx⟩

/-! ### Every stored depth stays justified by its dependencies -/

def JustInv (dOn : List (String × List String)) (d : List (String × Nat)) : Prop :=
  ∀ p ∈ d, (p.2 = 0 ∧ lookupA dOn p.1 = none) ∨
    (∃ ds m, lookupA dOn p.1 = some ds ∧ maxDepDepth d ds = some m ∧ p.2 ≤ m + 1)

theorem justInv_mono_state {dOn : List (String × List String)}
    {d d2 : List (String × Nat)} (hJ : JustInv dOn d) (hle : depthsLE d d2)
    (hmem : ∀ p ∈ d2, p ∈ d ∨
      (∃ ds m, lookupA dOn p.1 = some ds ∧ maxDepDepth d2 ds = some m ∧
        p.2 ≤ m + 1)) : JustInv dOn d2 := by
  intro p hp
  rcases hmem p hp with hold | hnew
  · rcases hJ p hold with hroot | ⟨ds, m, hds, hmax, hlep⟩
    · exact Or.inl hroot
    · rcases maxDepDepth_mono hle hmax with ⟨m2, hmax2, hm2⟩
      exact Or.inr ⟨ds, m2, hds, hmax2, by omega⟩
  · exact Or.inr hnew

theorem relaxStep_justInv (db : String) (dOn : List (String × List String))
    (st : List (String × Nat) × Bool) (tv : String × List String)
    (htv : tv ∈ dOn) (hden : (dOn.map Prod.fst).Nodup)
    (hJ : JustInv dOn st.1) : JustInv dOn (relaxStep db st tv).1 := by
  have hdslk : lookupA dOn tv.1 = some tv.2 := lookupA_of_mem_nodup hden htv
  have hins : ∀ m, maxDepDepth st.1 tv.2 = some m →
      (∀ cur, lookupA st.1 tv.1 = some cur → cur ≤ m + 1) →
      JustInv dOn (insertA st.1 tv.1 (m + 1)) := by
    intro m hm hcur
    have hle : depthsLE st.1 (insertA st.1 tv.1 (m + 1)) :=
      depthsLE_insertA st.1 tv.1 (m + 1) hcur
    apply justInv_mono_state hJ hle
    intro p hp
    rcases mem_insertA hp with hold | rfl
    · exact Or.inl hold
    · rcases maxDepDepth_mono hle hm with ⟨m2, hm2, hmm2⟩
      exact Or.inr ⟨tv.2, m2, hdslk, hm2, by omega⟩
  by_cases hdb : startsWithS tv.1 (db ++ ".") = true
  · cases hm : maxDepDepth st.1 tv.2 with
    | none =>
      rw [relaxStep_nodep db st tv hdb hm]
      exact hJ
    | some m =>
      cases hcur : lookupA st.1 tv.1 with
      | none =>
        rw [relaxStep_insert_new db st tv m hdb hm hcur]
        exact hins m hm (by
          intro cur hc
          rw [hcur] at hc
          cases hc)
      | some cur =>
        by_cases hlt : cur < m + 1
        · rw [relaxStep_update db st tv m cur hdb hm hcur hlt]
          exact hins m hm (by
            intro cur2 hc
            rw [hcur] at hc
            cases hc
            omega)
        · rw [relaxStep_keep db st tv m cur hdb hm hcur hlt]
          exact hJ
  · rw [relaxStep_nodb db st tv hdb]
    exact hJ

theorem foldl_relaxStep_justInv (db : String) (dOn : List (String × List String))
    (hden : (dOn.map Prod.fst).Nodup) (l : List (String × List String))
    (hl : ∀ tv ∈ l, tv ∈ dOn) :
    ∀ st : List (String × Nat) × Bool, JustInv dOn st.1 →
      JustInv dOn (l.foldl (relaxStep db) st).1 := by
  induction l with
  | nil => intro st hJ; exact hJ
  | cons tv rest ih =>
    intro st hJ
    rw [List.foldl_cons]
    exact ih (fun q hq => hl q (List.mem_cons_of_mem tv hq)) _
      (relaxStep_justInv db dOn st tv (hl tv (List.mem_cons_self tv rest)) hden hJ)

theorem relaxLoop_justInv (dOn : List (String × List String)) (db : String)
    (hden : (dOn.map Prod.fst).Nodup) :
    ∀ (fuel : Nat) (d res : List (String × Nat)), JustInv dOn d →
      relaxLoop dOn db fuel d = some res → JustInv dOn res := by
  intro fuel
  induction fuel with
  | zero => intro d res _ h; cases h
  | succ f ih =>
    intro d res hJ h
    unfold relaxLoop at h
    cases hch : (relaxPass dOn db d).2 with
    | true =>
      rw [if_pos (by rw [hch])] at h
      exact ih _ _ (foldl_relaxStep_justInv db dOn hden dOn (fun q hq => hq)
        (d, false) hJ) h
    | false =>
      rw [if_neg (by rw [hch]; exact Bool.false_ne_true)] at h
      cases h
      exact foldl_relaxStep_justInv db dOn hden dOn (fun q hq => hq) (d, false) hJ

theorem rootInit_entries (tkeys : List String)
    (dOn : List (String × List String)) :
    ∀ p ∈ rootInit tkeys dOn, p.2 = 0 ∧ containsA dOn p.1 = false := by
  unfold rootInit
  suffices h : ∀ (l : List String) (acc : List (String × Nat)),
      (∀ p ∈ acc, p.2 = 0 ∧ containsA dOn p.1 = false) →
      ∀ p ∈ l.foldl
        (fun acc k => if containsA dOn k then acc else insertA acc k 0) acc,
        p.2 = 0 ∧ containsA dOn p.1 = false by
    exact h tkeys [] (fun p hp => absurd hp (by simp))
  intro l
  induction l with
  | nil => intro acc hacc; exact hacc
  | cons k rest ih =>
    intro acc hacc
    rw [List.foldl_cons]
    apply ih
    by_cases hc : containsA dOn k
    · rw [if_pos hc]
      exact hacc
    · rw [if_neg hc]
      intro p hp
      rcases mem_insertA hp with hmem | rfl
      · exact hacc p hmem
      · exact ⟨rfl, by simpa using hc⟩

theorem rootInit_justInv (tkeys : List String)
    (dOn : List (String × List String)) : JustInv dOn (rootInit tkeys dOn) := by
  intro p hp
  have h := rootInit_entries tkeys dOn p hp
  exact Or.inl ⟨h.1, containsA_eq_false_lookupA dOn p.1 h.2⟩

/-! ### What a fixed point of the relaxation satisfies -/

theorem foldl_relaxStep_false_each (db : String) (l : List (String × List String)) :
    ∀ st : List (String × Nat) × Bool, (l.foldl (relaxStep db) st).2 = false →
      ∀ tv ∈ l, relaxStep db st tv = st := by
  induction l with
  | nil => intro st _ tv htv; cases htv
  | cons tv0 rest ih =>
    intro st h tv htv
    rw [List.foldl_cons] at h
    cases hst : (relaxStep db st tv0).2 with
    | true => rw [foldl_relaxStep_true_mono db rest _ hst] at h; cases h
    | false =>
      have heq := relaxStep_false hst
      rcases List.mem_cons.mp htv with rfl | htail
      · exact heq
      · rw [heq] at h
        exact ih st h tv htail

theorem relaxPass_false_each {dOn : List (String × List String)} {db : String}
    {D : List (String × Nat)} (h : relaxPass dOn db D = (D, false)) :
    ∀ tv ∈ dOn, relaxStep db (D, false) tv = (D, false) := by
  intro tv htv
  refine foldl_relaxStep_false_each db dOn (D, false) ?_ tv htv
  rw [show dOn.foldl (relaxStep db) (D, false) = relaxPass dOn db D from rfl, h]

theorem fixed_entry_ge {db : String} {D : List (String × Nat)}
    {tv : String × List String} {m : Nat}
    (hfix : relaxStep db (D, false) tv = (D, false))
    (hdb : startsWithS tv.1 (db ++ ".") = true)
    (hm : maxDepDepth D tv.2 = some m) :
    ∃ cur, lookupA D tv.1 = some cur ∧ m + 1 ≤ cur := by
  cases hcur : lookupA D tv.1 with
  | none =>
    rw [relaxStep_insert_new db (D, false) tv m hdb hm hcur] at hfix
    have : (true : Bool) = false := congrArg Prod.snd hfix
    exact absurd this (by decide)
  | some cur =>
    by_cases hlt : cur < m + 1
    · rw [relaxStep_update db (D, false) tv m cur hdb hm hcur hlt] at hfix
      have : (true : Bool) = false := congrArg Prod.snd hfix
      exact absurd this (by decide)
    · exact ⟨cur, rfl, by omega⟩

theorem isPrefixOf_append_self (l1 l2 : List Char) :
    l1.isPrefixOf (l1 ++ l2) = true := by
  induction l1 with
  | nil => cases l2 <;> rfl
  | cons c cs ih =>
    show (c == c && cs.isPrefixOf (cs ++ l2)) = true
    rw [ih]
    simp

theorem startsWith_tableKey (db n : String) :
    startsWithS (tableKey db n) (db ++ ".") = true := by
  show ((db ++ ".").data).isPrefixOf (((db ++ ".") ++ n).data) = true
  rw [show (((db ++ ".") ++ n)).data = (db ++ ".").data ++ n.data from rfl]
  exact isPrefixOf_append_self _ _

theorem containsA_false_of_lookupA_none {α : Type} {l : List (String × α)}
    {k : String} (h : lookupA l k = none) : containsA l k = false := by
  cases hc : containsA l k with
  | false => rfl
  | true =>
    have := lookupA_isSome_of_containsA hc
    rw [h] at this
    cases this

/-- At a fixed point of the relaxation, every table key has an entry:
roots hold 0 and every other key holds one more than the maximum entry
of its dependencies. -/
theorem fixed_point_entries (db : String) (deps : List DependencyRow)
    (tkeys : List String) (D : List (String × Nat))
    (hfix : ∀ tv ∈ buildDependsOn deps, relaxStep db (D, false) tv = (D, false))
    (hroot : ∀ k, k ∈ tkeys → lookupA (buildDependsOn deps) k = none →
      lookupA D k = some 0)
    (hpfx : ∀ k ∈ tkeys, startsWithS k (db ++ ".") = true)
    (hJ : JustInv (buildDependsOn deps) D)
    (hfrom : ∀ d ∈ deps, tableKey d.dep_database d.dep_table ∈ tkeys)
    (rank : String → Nat)
    (hrank : ∀ q ∈ buildDependsOn deps, ∀ u ∈ q.2, rank u < rank q.1) :
    ∀ n, ∀ k ∈ tkeys, rank k < n →
      (lookupA (buildDependsOn deps) k = none → lookupA D k = some 0) ∧
      (∀ ds, lookupA (buildDependsOn deps) k = some ds →
        ∃ m, maxDepDepth D ds = some m ∧ lookupA D k = some (m + 1)) := by
  intro n
  induction n with
  | zero => intro k _ hlt; omega
  | succ n ih =>
    intro k hk hlt
    refine ⟨hroot k hk, ?_⟩
    intro ds hds
    have hchar := buildDependsOn_lookup deps k
    rw [hds] at hchar
    by_cases hemp : depListOf deps k = []
    · rw [if_pos hemp] at hchar
      cases hchar
    · rw [if_neg hemp] at hchar
      have hdseq : ds = depListOf deps k := by
        cases hchar
        rfl
      have hdssub : ∀ u ∈ ds, u ∈ tkeys := by
        intro u hu
        rw [hdseq] at hu
        rcases List.mem_map.mp hu with ⟨d, hdmem, rfl⟩
        exact hfrom d (List.mem_of_mem_filter hdmem)
      have hdsne : ds ≠ [] := by
        rw [hdseq]
        exact hemp
      have hqmem : (k, ds) ∈ buildDependsOn deps := mem_of_lookupA hds
      have hdep_entries : ∀ u ∈ ds, (lookupA D u).isSome := by
        intro u hu
        have hurank : rank u < rank k := hrank (k, ds) hqmem u hu
        have hun : rank u < n := by omega
        have hih := ih u (hdssub u hu) hun
        cases hu2 : lookupA (buildDependsOn deps) u with
        | none =>
          rw [hih.1 hu2]
          rfl
        | some ds2 =>
          rcases hih.2 ds2 hu2 with ⟨m2, _, hlk⟩
          rw [hlk]
          rfl
      have hmax : ∃ m, maxDepDepth D ds = some m := by
        obtain ⟨u, hu⟩ := List.exists_mem_of_ne_nil ds hdsne
        have hs := hdep_entries u hu
        rcases Option.isSome_iff_exists.mp hs with ⟨v, hv⟩
        have hvmem : v ∈ ds.filterMap (lookupA D) :=
          List.mem_filterMap.mpr ⟨u, hu, hv⟩
        rcases max?_some_of_mem hvmem with ⟨mx, hmx, _⟩
        exact ⟨mx, hmx⟩
      rcases hmax with ⟨m, hm⟩
      rcases fixed_entry_ge (hfix (k, ds) hqmem) (hpfx k hk) hm with ⟨cur, hcur, hge⟩
      have hub : cur ≤ m + 1 := by
        rcases hJ (k, cur) (mem_of_lookupA hcur) with ⟨_, hnone⟩ | ⟨ds2, m2, hds2, hmax2, hle2⟩
        · rw [hds] at hnone
          cases hnone
        · rw [hds] at hds2
          have : ds2 = ds := by
            cases hds2
            rfl
          rw [this, hm] at hmax2
          have : m2 = m := by
            cases hmax2
            rfl
          rw [this] at hle2
          exact hle2
      refine ⟨m, hm, ?_⟩
      rw [hcur]
      have : cur = m + 1 := by omega
      rw [this]

/-! ### Assembling depth correctness of build_dag -/

/-- The node `build_dag` makes for one table row, given the final depth map. -/
def nodeOfRow (depths : List (String × Nat)) (t : TableRow) : MvDagNode :=
  { name := t.name, database := t.database,
    table_type :=
      if containsSub t.engine "MaterializedView" then TableType.materialized_view
      else TableType.table,
    engine := t.engine,
    depth := (lookupA depths (tableKey t.database t.name)).getD 0 }

/-- The edge `build_dag` makes for one dependency row. -/
def edgeOfRow (d : DependencyRow) : MvDagEdge :=
  { from_ := tableKey d.dep_database d.dep_table,
    to_ := tableKey d.database d.name }

theorem build_dag_eq (fuel : Nat) (db : String) (tables : List TableRow)
    (deps : List DependencyRow) :
    MvDagCollector.build_dag fuel db tables deps =
      match MvDagCollector.calculate_depths fuel tables (buildDependsOn deps) db with
      | none => none
      | some depths =>
        some
          { nodes := tables.map (nodeOfRow depths),
            edges := deps.map edgeOfRow,
            max_depth := ((depths.map (·.2)).max?).getD 0,
            total_tables := tables.length -
              (tables.filter (fun t => containsSub t.engine "MaterializedView")).length,
            total_mvs :=
              (tables.filter (fun t => containsSub t.engine "MaterializedView")).length } :=
  rfl

/-- The depth stored on the (first) node of the section whose key is `k`,
if such a node exists. -/
def nodeDepthOf (ns : List MvDagNode) (k : String) : Option Nat :=
  (ns.find? (fun n => decide (tableKey n.database n.name = k))).map
    (fun n => n.depth)

theorem nodeDepthOf_nodes (D : List (String × Nat)) (tables : List TableRow)
    (u : String) (hu : u ∈ tables.map (fun t => tableKey t.database t.name)) :
    nodeDepthOf (tables.map (nodeOfRow D)) u = some ((lookupA D u).getD 0) := by
  unfold nodeDepthOf
  rw [List.find?_map (nodeOfRow D) tables]
  rcases List.mem_map.mp hu with ⟨t0, ht0, hk0⟩
  have hsome : (tables.find?
      ((fun n => decide (tableKey n.database n.name = u)) ∘ nodeOfRow D)).isSome := by
    refine List.find?_isSome.mpr ⟨t0, ht0, ?_⟩
    show decide (tableKey t0.database t0.name = u) = true
    rw [hk0]
    exact decide_eq_true rfl
  rcases Option.isSome_iff_exists.mp hsome with ⟨t1, ht1⟩
  rw [ht1]
  have hp := List.find?_some ht1
  have hp2 : decide (tableKey t1.database t1.name = u) = true := hp
  have hk1 : tableKey t1.database t1.name = u := of_decide_eq_true hp2
  show some ((lookupA D (tableKey t1.database t1.name)).getD 0) =
    some ((lookupA D u).getD 0)
  rw [hk1]

/-- C6: in the MvDagSection returned by build_dag on wellformed acyclic
input (every table row in the target database, every dependency's
depended-on endpoint naming a table row, and the dependency map admitting
a rank function, i.e. the input is acyclic), the from-side of every edge
into a node names a node of the section, every node with no incoming edge
has depth 0, and every node with incoming edges has depth one more than
the maximum depth of the nodes on the from-side of its incoming edges. -/
theorem build_dag_depth_correct (fuel : Nat) (db : String)
    (tables : List TableRow) (deps : List DependencyRow) (sec : MvDagSection)
    (hs : MvDagCollector.build_dag fuel db tables deps = some sec)
    (hdb : ∀ t ∈ tables, t.database = db)
    (hfrom : ∀ d ∈ deps, ∃ t ∈ tables,
      t.database = d.dep_database ∧ t.name = d.dep_table)
    (rank : String → Nat)
    (hrank : ∀ q ∈ buildDependsOn deps, ∀ u ∈ q.2, rank u < rank q.1) :
    ∀ nd ∈ sec.nodes,
      (∀ e ∈ sec.edges, e.to_ = tableKey nd.database nd.name →
        ∃ und ∈ sec.nodes, tableKey und.database und.name = e.from_) ∧
      (sec.edges.filter
          (fun e => decide (e.to_ = tableKey nd.database nd.name)) = [] →
        nd.depth = 0) ∧
      (sec.edges.filter
          (fun e => decide (e.to_ = tableKey nd.database nd.name)) ≠ [] →
        ∃ m, ((sec.edges.filter
            (fun e => decide (e.to_ = tableKey nd.database nd.name))).filterMap
            (fun e => nodeDepthOf sec.nodes e.from_)).max? = some m ∧
          nd.depth = m + 1) := by
  rw [build_dag_eq] at hs
  cases hcd : MvDagCollector.calculate_depths fuel tables (buildDependsOn deps) db with
  | none =>
    rw [hcd] at hs
    cases hs
  | some D =>
  rw [hcd] at hs
  have hnodes : sec.nodes = tables.map (nodeOfRow D) := by
    injection hs with h
    rw [← h]
  have hedges : sec.edges = deps.map edgeOfRow := by
    injection hs with h
    rw [← h]
  have hD' : relaxLoop (buildDependsOn deps) db fuel
      (rootInit (tables.map (fun t => tableKey t.database t.name))
        (buildDependsOn deps)) = some D := hcd
  have hfixpass : relaxPass (buildDependsOn deps) db D = (D, false) :=
    relaxLoop_some_fixed hD'
  have hfix := relaxPass_false_each hfixpass
  have hJ : JustInv (buildDependsOn deps) D :=
    relaxLoop_justInv (buildDependsOn deps) db (buildDependsOn_keys_nodup deps)
      fuel _ D (rootInit_justInv _ _) hD'
  have hroot : ∀ k2, k2 ∈ tables.map (fun t => tableKey t.database t.name) →
      lookupA (buildDependsOn deps) k2 = none → lookupA D k2 = some 0 := by
    intro k2 hk2 hnone
    have hne : ∀ tv ∈ buildDependsOn deps, ¬ tv.1 = k2 := by
      intro tv htv heq
      have hlk := lookupA_of_mem_nodup (buildDependsOn_keys_nodup deps) htv
      rw [heq, hnone] at hlk
      cases hlk
    rw [relaxLoop_lookup_untouched (buildDependsOn deps) db k2 hne fuel _ D hD']
    rw [rootInit_lookup]
    rw [if_pos ⟨hk2, containsA_false_of_lookupA_none hnone⟩]
  have hpfx : ∀ k2 ∈ tables.map (fun t => tableKey t.database t.name),
      startsWithS k2 (db ++ ".") = true := by
    intro k2 hk2
    rcases List.mem_map.mp hk2 with ⟨t2, ht2, rfl⟩
    rw [hdb t2 ht2]
    exact startsWith_tableKey db t2.name
  have hfromk : ∀ d ∈ deps, tableKey d.dep_database d.dep_table ∈
      tables.map (fun t => tableKey t.database t.name) := by
    intro d hd
    rcases hfrom d hd with ⟨t2, ht2, hdb2, hnm2⟩
    exact List.mem_map.mpr ⟨t2, ht2, by rw [hdb2, hnm2]⟩
  have hentry := fixed_point_entries db deps
    (tables.map (fun t => tableKey t.database t.name)) D hfix hroot hpfx hJ
    hfromk rank hrank
  intro nd hnd
  rw [hnodes] at hnd
  rcases List.mem_map.mp hnd with ⟨t, ht, hntd⟩
  subst hntd
  simp only [hnodes, hedges,
    show (nodeOfRow D t).database = t.database from rfl,
    show (nodeOfRow D t).name = t.name from rfl,
    show (nodeOfRow D t).depth =
      (lookupA D (tableKey t.database t.name)).getD 0 from rfl]
  have hkmem : tableKey t.database t.name ∈
      tables.map (fun t => tableKey t.database t.name) :=
    List.mem_map.mpr ⟨t, ht, rfl⟩
  have hEfil : (deps.map edgeOfRow).filter
      (fun e => decide (e.to_ = tableKey t.database t.name)) =
      (deps.filter
        (fun d => decide (tableKey d.database d.name = tableKey t.database t.name))).map
        edgeOfRow := by
    rw [List.filter_map edgeOfRow deps]
    rfl
  have hEfrom : ((deps.map edgeOfRow).filter
      (fun e => decide (e.to_ = tableKey t.database t.name))).map
      (fun e => e.from_) = depListOf deps (tableKey t.database t.name) := by
    rw [hEfil, List.map_map]
    rfl
  refine ⟨?_, ?_, ?_⟩
  · intro e he _
    rcases List.mem_map.mp he with ⟨d, hdmem, rfl⟩
    rcases hfrom d hdmem with ⟨t2, ht2, hdb2, hnm2⟩
    refine ⟨nodeOfRow D t2, List.mem_map.mpr ⟨t2, ht2, rfl⟩, ?_⟩
    show tableKey t2.database t2.name = tableKey d.dep_database d.dep_table
    rw [hdb2, hnm2]
  · intro hEnil
    have hdl : depListOf deps (tableKey t.database t.name) = [] := by
      rw [← hEfrom, hEnil]
      rfl
    have hnone : lookupA (buildDependsOn deps) (tableKey t.database t.name) = none := by
      rw [buildDependsOn_lookup, if_pos hdl]
    rw [hroot (tableKey t.database t.name) hkmem hnone]
    rfl
  · intro hEne
    have hdl : depListOf deps (tableKey t.database t.name) ≠ [] := by
      intro hdl0
      rw [← hEfrom] at hdl0
      exact hEne (List.map_eq_nil_iff.mp hdl0)
    have hlkd : lookupA (buildDependsOn deps) (tableKey t.database t.name) =
        some (depListOf deps (tableKey t.database t.name)) := by
      rw [buildDependsOn_lookup, if_neg hdl]
    rcases (hentry (rank (tableKey t.database t.name) + 1)
        (tableKey t.database t.name) hkmem (Nat.lt_succ_self _)).2
        (depListOf deps (tableKey t.database t.name)) hlkd with ⟨m, hmax, hlk⟩
    have h1 : ((deps.map edgeOfRow).filter
        (fun e => decide (e.to_ = tableKey t.database t.name))).filterMap
        (fun e => nodeDepthOf (tables.map (nodeOfRow D)) e.from_) =
        (depListOf deps (tableKey t.database t.name)).filterMap
          (nodeDepthOf (tables.map (nodeOfRow D))) := by
      rw [← hEfrom, List.filterMap_map]
      rfl
    have h2 : (depListOf deps (tableKey t.database t.name)).filterMap
        (nodeDepthOf (tables.map (nodeOfRow D))) =
        (depListOf deps (tableKey t.database t.name)).filterMap (lookupA D) := by
      apply List.filterMap_congr
      intro u hu
      have humem : u ∈ tables.map (fun t => tableKey t.database t.name) := by
        rcases List.mem_map.mp hu with ⟨d, hdmem, rfl⟩
        exact hfromk d (List.mem_of_mem_filter hdmem)
      rw [nodeDepthOf_nodes D tables u humem]
      have hue := hentry (rank u + 1) u humem (Nat.lt_succ_self _)
      cases hu2 : lookupA (buildDependsOn deps) u with
      | none =>
        rw [hue.1 hu2]
        rfl
      | some ds2 =>
        rcases hue.2 ds2 hu2 with ⟨m2, _, hlk2⟩
        rw [hlk2]
        rfl
    refine ⟨m, ?_, ?_⟩
    · rw [h1, h2]
      exact hmax
    · rw [hlk]
      rfl

theorem build_dag_depth_correct_witness :
    (MvDagCollector.build_dag 10 "testdb" tablesW depsW = some secW) ∧
    (∀ t ∈ tablesW, t.database = "testdb") ∧
    (∀ d ∈ depsW, ∃ t ∈ tablesW,
      t.database = d.dep_database ∧ t.name = d.dep_table) ∧
    (∀ q ∈ buildDependsOn depsW, ∀ u ∈ q.2, rankW u < rankW q.1) ∧
    (∀ nd ∈ secW.nodes,
      (∀ e ∈ secW.edges, e.to_ = tableKey nd.database nd.name →
        ∃ und ∈ secW.nodes, tableKey und.database und.name = e.from_) ∧
      (secW.edges.filter
          (fun e => decide (e.to_ = tableKey nd.database nd.name)) = [] →
        nd.depth = 0) ∧
      (secW.edges.filter
          (fun e => decide (e.to_ = tableKey nd.database nd.name)) ≠ [] →
        ∃ m, ((secW.edges.filter
            (fun e => decide (e.to_ = tableKey nd.database nd.name))).filterMap
            (fun e => nodeDepthOf secW.nodes e.from_)).max? = some m ∧
          nd.depth = m + 1)) :=
  ⟨by decide, by decide, by decide, by decide,
    build_dag_depth_correct 10 "testdb" tablesW depsW secW (by decide)
      (by decide) (by decide) rankW (by decide)⟩

end PipeAudit
